import Mathlib

/-!
Verification of the request-content segmentation engine of the `extract`
repository (files `content.py`, `extract_hencha_batch.py`,
`extract_scope_sentence_batch.py`).

Strings are modelled as `List Char` (Lean `Char` is a Unicode scalar value,
matching Python's per-code-point string indexing).  Each Python regex used by
the source is embedded as a value of a small regex type `Rx` whose
constructors cover exactly the constructs appearing in the source patterns;
`matchL` is the propositional language semantics and `rmatch` an executable
matcher, proved equivalent.  Python regex API differences are modelled as:
`re.match` = some prefix of the line is in the language (`pmatchB`),
`re.search` = some contiguous substring is in the language (`searchB`),
and a pattern anchored as `^...$` = the whole line is in the language
(`rmatch`), which is exact here because scanned lines contain no newline.

Python's `\s` is modelled by `isPyWs` (the ASCII whitespace characters plus
the ideographic space U+3000, the only whitespace characters relevant to the
patterns and inputs at hand), and `\d` by `Char.isDigit`.
-/

/-- Whitespace as used for Python's str.strip and the regex class backslash-s
(common members). -/
def isPyWs (c : Char) : Bool :=
  c = ' ' || c = '\t' || c = '\n' || c = '\r' || c = '\x0b' || c = '\x0c' || c = '　'

/-- Characters collapsed by the normalizer's intra-line whitespace rule,
the Python character class of space and tab. -/
def isSpTab (c : Char) : Bool :=
  c = ' ' || c = '\t'

/-- Python str.lstrip with an explicit character set. -/
def lstripSet (cs : List Char) (l : List Char) : List Char :=
  l.dropWhile (fun c => cs.contains c)

/-- Drop trailing characters satisfying p (Python str.rstrip). -/
def rstripP (p : Char → Bool) (l : List Char) : List Char :=
  (l.reverse.dropWhile p).reverse

/-- Python str.strip with no argument: remove leading and trailing whitespace. -/
def pyStrip (l : List Char) : List Char :=
  rstripP isPyWs (l.dropWhile isPyWs)

/-- Fuel-driven worker for replaceAll; the fuel only serves structural
termination and never runs out when it starts at the list length. -/
def replaceAllF (w r : List Char) : Nat → List Char → List Char
  | 0, s => s
  | _ + 1, [] => []
  | fuel + 1, c :: cs =>
    if w.isPrefixOf (c :: cs) && !w.isEmpty then
      r ++ replaceAllF w r fuel ((c :: cs).drop w.length)
    else
      c :: replaceAllF w r fuel cs

/-- Python str.replace: replace every non-overlapping occurrence of w by r,
scanning left to right.  (All replacement sources in the code are nonempty.) -/
def replaceAll (w r s : List Char) : List Char :=
  replaceAllF w r s.length s

/-- Worker for collapseWs: the flag records whether the previous character
was part of a space-tab run already emitted as one space. -/
def collapseAux : Bool → List Char → List Char
  | _, [] => []
  | inRun, c :: cs =>
    if isSpTab c then
      if inRun then collapseAux true cs
      else ' ' :: collapseAux true cs
    else c :: collapseAux false cs

/-- Python re.sub of the class space-or-tab, one or more, by a single space:
every maximal run of spaces and tabs becomes one space. -/
def collapseWs (s : List Char) : List Char :=
  collapseAux false s

/-- Python substring containment (the `in` operator on strings). -/
def subIn (w l : List Char) : Bool :=
  l.tails.any (fun t => w.isPrefixOf t)

/-- Split at the first occurrence of w: returns the part before and the part
after that occurrence.  none when w does not occur. -/
def splitFirst (w : List Char) : List Char → Option (List Char × List Char)
  | [] => none
  | c :: cs =>
    if w.isPrefixOf (c :: cs) then some ([], (c :: cs).drop w.length)
    else
      match splitFirst w cs with
      | some (b, a) => some (c :: b, a)
      | none => none

/-!  A minimal regex type covering the constructs used by the source patterns. -/

/-- Regex abstract syntax: empty language, empty string, a literal character,
a single character from a class, alternation, concatenation, an optional
part, a class repeated zero or more / one or more times, and the lazy or
greedy dot-star (equivalent for match existence; lines contain no newline). -/
inductive Rx where
  | bot
  | eps
  | chr (c : Char)
  | cls (p : Char → Bool)
  | alt (r1 r2 : Rx)
  | cat (r1 r2 : Rx)
  | opt (r : Rx)
  | starCls (p : Char → Bool)
  | plusCls (p : Char → Bool)
  | dotStar

/-- Language semantics of `Rx`. -/
def matchL : Rx → List Char → Prop
  | .bot, _ => False
  | .eps, w => w = []
  | .chr c, w => w = [c]
  | .cls p, w => ∃ c, w = [c] ∧ p c = true
  | .alt r1 r2, w => matchL r1 w ∨ matchL r2 w
  | .cat r1 r2, w => ∃ u v, w = u ++ v ∧ matchL r1 u ∧ matchL r2 v
  | .opt r, w => w = [] ∨ matchL r w
  | .starCls p, w => ∀ c ∈ w, p c = true
  | .plusCls p, w => w ≠ [] ∧ ∀ c ∈ w, p c = true
  | .dotStar, _ => True

/-- Executable full matcher for `Rx`. -/
def rmatch : Rx → List Char → Bool
  | .bot, _ => false
  | .eps, w => w.isEmpty
  | .chr c, w => w == [c]
  | .cls p, w => match w with
    | [c] => p c
    | _ => false
  | .alt r1 r2, w => rmatch r1 w || rmatch r2 w
  | .cat r1 r2, w =>
    (List.range (w.length + 1)).any (fun i => rmatch r1 (w.take i) && rmatch r2 (w.drop i))
  | .opt r, w => w.isEmpty || rmatch r w
  | .starCls p, w => w.all p
  | .plusCls p, w => !w.isEmpty && w.all p
  | .dotStar, _ => true

theorem rmatch_iff (r : Rx) (w : List Char) : rmatch r w = true ↔ matchL r w := by
  induction r generalizing w with
  | bot => simp [rmatch, matchL]
  | eps => simp [rmatch, matchL, List.isEmpty_iff]
  | chr c => simp [rmatch, matchL]
  | cls p =>
    cases w with
    | nil => simp [rmatch, matchL]
    | cons a t =>
      cases t with
      | nil => simp [rmatch, matchL]
      | cons b t' => simp [rmatch, matchL]
  | alt r1 r2 ih1 ih2 => simp [rmatch, matchL, ih1, ih2]
  | cat r1 r2 ih1 ih2 =>
    simp only [rmatch, matchL, List.any_eq_true, List.mem_range, Bool.and_eq_true]
    constructor
    · rintro ⟨i, _, h1, h2⟩
      exact ⟨w.take i, w.drop i, (List.take_append_drop i w).symm,
        (ih1 _).mp h1, (ih2 _).mp h2⟩
    · rintro ⟨u, v, rfl, h1, h2⟩
      refine ⟨u.length, by simp [List.length_append]; omega, ?_, ?_⟩
      · rw [List.take_left]; exact (ih1 _).mpr h1
      · rw [List.drop_left]; exact (ih2 _).mpr h2
  | opt r ih => simp [rmatch, matchL, ih, List.isEmpty_iff]
  | starCls p => simp [rmatch, matchL, List.all_eq_true]
  | plusCls p =>
    simp [rmatch, matchL, List.all_eq_true, List.isEmpty_iff]
  | dotStar => simp [rmatch, matchL]

/-- Python re.match semantics: some prefix of l is in the language. -/
def pmatchB (r : Rx) (l : List Char) : Bool :=
  l.inits.any (fun p => rmatch r p)

/-- Python re.search semantics: some contiguous substring of l is in the
language. -/
def searchB (r : Rx) (l : List Char) : Bool :=
  l.tails.any (fun t => pmatchB r t)

theorem pmatchB_iff (r : Rx) (l : List Char) :
    pmatchB r l = true ↔ ∃ p, p <+: l ∧ matchL r p := by
  simp only [pmatchB, List.any_eq_true, List.mem_inits]
  constructor
  · rintro ⟨p, hp, hm⟩; exact ⟨p, hp, (rmatch_iff r p).mp hm⟩
  · rintro ⟨p, hp, hm⟩; exact ⟨p, hp, (rmatch_iff r p).mpr hm⟩

theorem searchB_iff (r : Rx) (l : List Char) :
    searchB r l = true ↔ ∃ w, w <:+: l ∧ matchL r w := by
  simp only [searchB, List.any_eq_true, List.mem_tails]
  constructor
  · rintro ⟨t, ht, hp⟩
    obtain ⟨w, hw, hm⟩ := (pmatchB_iff r t).mp hp
    obtain ⟨b, rfl⟩ := hw
    obtain ⟨a, rfl⟩ := ht
    exact ⟨w, ⟨a, b, by rw [List.append_assoc]⟩, hm⟩
  · rintro ⟨w, ⟨a, b, rfl⟩, hm⟩
    exact ⟨w ++ b, ⟨a, by rw [List.append_assoc]⟩,
      (pmatchB_iff r (w ++ b)).mpr ⟨w, ⟨b, rfl⟩, hm⟩⟩

/-- Regex denoting one literal string. -/
def rstr (s : List Char) : Rx :=
  s.foldr (fun c r => .cat (.chr c) r) .eps

theorem matchL_rstr (s w : List Char) : matchL (rstr s) w ↔ w = s := by
  induction s generalizing w with
  | nil => simp [rstr, matchL]
  | cons c cs ih =>
    simp only [rstr, List.foldr_cons, matchL]
    constructor
    · rintro ⟨u, v, rfl, rfl, hv⟩
      rw [(ih v).mp hv]; rfl
    · rintro rfl
      exact ⟨[c], cs, rfl, rfl, (ih cs).mpr rfl⟩

/-- Regex denoting the alternation of a list of literal strings, in order. -/
def altStrs (ss : List (List Char)) : Rx :=
  ss.foldr (fun s r => .alt (rstr s) r) .bot

theorem matchL_altStrs (ss : List (List Char)) (w : List Char) :
    matchL (altStrs ss) w ↔ w ∈ ss := by
  induction ss with
  | nil => simp [altStrs, matchL]
  | cons s ss ih =>
    simp only [altStrs, List.foldr_cons, matchL, matchL_rstr, List.mem_cons]
    rw [show List.foldr (fun s r => Rx.alt (rstr s) r) Rx.bot ss = altStrs ss from rfl, ih]

/-!
Embedding of the rule configuration and the extraction engine shared by
content.py and extract_hencha_batch.py.  The two files define the patterns,
normalize_text, is_disallowed_bullet, should_soft_stop and the scanning loop
identically (the batch file writes the continuation-punctuation class with a
duplicated comma, denoting the same character set); they differ only in how
the accumulator is seeded at a trigger line, which is captured by the seed
parameter of scanLoop: content.py seeds with tail_after_provide, the batch
file with the first component of split_provide.
-/

namespace Hencha

/-- The trigger keyword 提供. -/
def kwProvide : List Char := ['提', '供']

/-- TRIGGER regex of content.py line 14 and extract_hencha_batch.py line 22.
Capture groups do not affect whether a search succeeds and are dropped. -/
def TRIGGER : Rx :=
  .cat (.opt (altStrs [['惠', '請'], ['敬', '請']]))
    (.cat .dotStar
      (.cat (.opt (.chr '請'))
        (.cat .dotStar
          (.cat (rstr kwProvide)
            (.opt (.cat .dotStar
              (altStrs [['如', '下'], ['下', '列'], ['如', '次'], ['資', '料'], ['清', '單']])))))))

/-- Section-header words of the STOP_HEAD regex, in the alternation order. -/
def HEADS : List (List Char) :=
  [['主', '旨'], ['說', '明'], ['理', '由'], ['辦', '法'], ['注', '意', '事', '項'],
   ['附', '件'], ['抄', '送'], ['結', '語'], ['此', '致'], ['敬', '請'],
   ['承', '辦'], ['署', '名']]

/-- STOP_HEAD regex: a bare header line with an optional colon and trailing
whitespace, anchored on both sides. -/
def STOP_HEAD : Rx :=
  .cat (altStrs HEADS)
    (.cat (.opt (.cls (fun c => c = ':' || c = '：'))) (.starCls isPyWs))

/-- STOP_HEAD.match on a line (the pattern is anchored at both ends, so this
is a whole-line match). -/
def stopHeadB (l : List Char) : Bool := rmatch STOP_HEAD l

/-- The ideographic numerals of the bullet classes. -/
def NUMERALS : List Char := ['一', '二', '三', '四', '五', '六', '七', '八', '九', '十']

/-- ALLOW_BULLET regex: optional whitespace, an opening parenthesis (full- or
half-width), one or more ideographic numerals, a closing parenthesis,
optional whitespace. -/
def ALLOW_BULLET : Rx :=
  .cat (.starCls isPyWs)
    (.cat (.cls (fun c => c = '（' || c = '('))
      (.cat (.plusCls (fun c => decide (c ∈ NUMERALS)))
        (.cat (.cls (fun c => c = '）' || c = ')')) (.starCls isPyWs))))

/-- ALLOW_BULLET.match on a line. -/
def allowBulletB (l : List Char) : Bool := pmatchB ALLOW_BULLET l

/-- First DISALLOW_BULLETS regex: ideographic numerals followed by 、. -/
def DISALLOW_B1 : Rx :=
  .cat (.starCls isPyWs)
    (.cat (.plusCls (fun c => decide (c ∈ NUMERALS)))
      (.cat (.cls (fun c => c = '、')) (.starCls isPyWs)))

/-- Second DISALLOW_BULLETS regex: digits followed by period, 、 or a closing
parenthesis. -/
def DISALLOW_B2 : Rx :=
  .cat (.starCls isPyWs)
    (.cat (.plusCls Char.isDigit)
      (.cat (.cls (fun c => c = '.' || c = '、' || c = ')')) (.starCls isPyWs)))

/-- Third DISALLOW_BULLETS regex: a bullet glyph followed by whitespace. -/
def DISALLOW_B3 : Rx :=
  .cat (.starCls isPyWs)
    (.cat (.cls (fun c => c = '•' || c = '●' || c = '○' || c = '-'))
      (.plusCls isPyWs))

/-- is_disallowed_bullet: any of the three disallowed-bullet regexes matches
at the start of the line. -/
def is_disallowed_bullet (l : List Char) : Bool :=
  pmatchB DISALLOW_B1 l || pmatchB DISALLOW_B2 l || pmatchB DISALLOW_B3 l

/-- Politeness-closing regex searched by should_soft_stop. -/
def CLOSING : Rx :=
  .cat (.chr '請')
    (.cat .dotStar (altStrs [['查', '照'], ['核', '示'], ['覆'], ['辦', '理'], ['配', '合']]))

/-- should_soft_stop: stop-header, disallowed bullet, or politeness closing. -/
def should_soft_stop (l : List Char) : Bool :=
  stopHeadB l || is_disallowed_bullet l || searchB CLOSING l

/-- NEGATION regex: the four need-not or must-not provide phrases. -/
def NEGATION : Rx :=
  altStrs [['不', '得', '提', '供'], ['無', '需', '提', '供'],
           ['毋', '需', '提', '供'], ['不', '需', '提', '供']]

/-- The trigger-line test at content.py line 68 and
extract_hencha_batch.py line 92. -/
def triggerFires (l : List Char) : Bool :=
  subIn kwProvide l && searchB TRIGGER l && !searchB NEGATION l

/-- The OCR-confusable replacement table of normalize_text, in the source's
insertion order. -/
def REPL_TABLE : List (List Char × List Char) :=
  [(['：'], [':']), (['﹕'], [':']), (['∶'], [':']), (['　'], [' ']),
   (['提', ' ', '供'], ['提', '供']), (['拖', '供'], ['提', '供']),
   (['體', '供'], ['提', '供']), (['下', ' ', '列'], ['下', '列']),
   (['成', '列'], ['下', '列']), (['列', '下'], ['下', '列'])]

/-- The replacement stage of normalize_text: each table entry is applied with
str.replace, in order. -/
def applyRepl (s : List Char) : List Char :=
  REPL_TABLE.foldl (fun acc kv => replaceAll kv.1 kv.2 acc) s

/-- The final stage of normalize_text: collapse intra-line whitespace runs to
one space, then strip. -/
def wsFinish (s : List Char) : List Char :=
  pyStrip (collapseWs s)

/-- normalize_text of content.py lines 28-39 (identical in
extract_hencha_batch.py lines 38-49). -/
def normalize_text (s : List Char) : List Char :=
  wsFinish (applyRepl s)

/-- The connective words stripped from the post-keyword tail, in the
alternation order of the re.sub pattern. -/
def CONNECTIVES : List (List Char) :=
  [['如', '下'], ['下', '列'], ['如', '次'], ['資', '料'], ['清', '單']]

/-- re.sub of one leading connective word and an optional following colon.
The pattern is anchored at the start, so at most one replacement happens. -/
def stripConnective (post : List Char) : List Char :=
  match CONNECTIVES.find? (fun w => w.isPrefixOf post) with
  | some w =>
    match post.drop w.length with
    | [] => []
    | c :: cs => if c = ':' || c = '：' then cs else c :: cs
  | none => post

/-- The common tail cleanup: strip one leading connective with optional
colon, left-strip punctuation, then strip. -/
def seedStrip (post : List Char) : List Char :=
  pyStrip (lstripSet [' ', ':', '：', '、', '，', ',', '；', ';'] (stripConnective post))

/-- tail_after_provide of content.py lines 51-56: the cleaned-up part of the
line strictly after the first occurrence of the keyword. -/
def tail_after_provide (line : List Char) : List Char :=
  match splitFirst kwProvide line with
  | none => []
  | some (_, post) => seedStrip post

/-- split_provide of extract_hencha_batch.py lines 65-78: the stripped
substring from the first keyword occurrence onward, and the cleaned-up tail
after the keyword. -/
def split_provide (line : List Char) : List Char × List Char :=
  match splitFirst kwProvide line with
  | none => ([], [])
  | some (_, post) => (pyStrip (kwProvide ++ post), seedStrip post)

/-- Truncation of a raw line before normalization: Python rstrip of carriage
return and newline. -/
def rstripCRLF (l : List Char) : List Char :=
  rstripP (fun c => c = '\r' || c = '\n') l

/-- Line preprocessing of extract_hencha_from_lines: keep lines that are
nonempty and not all-whitespace, normalize each. -/
def preprocess (lines : List (List Char)) : List (List Char) :=
  (lines.filter (fun l => !l.isEmpty && !(pyStrip l).isEmpty)).map
    (fun l => normalize_text (rstripCRLF l))

/-- A recorded segment: start line, end line (both inclusive, indices into
the surviving normalized lines) and the joined text. -/
structure Segment where
  start_line : Nat
  end_line : Nat
  value : List Char
deriving DecidableEq, Repr

/-- The result record of one extraction call. -/
structure ExtractionResult where
  value : Option (List Char)
  alternatives : List (List Char)
  segments : List Segment
deriving DecidableEq, Repr

/-- The continuation punctuation test at content.py line 99 (the batch file's
class lists the comma twice, denoting the same set): the previous line is
nonempty and ends in one of the seven continuation marks. -/
def endsContPunct (prev : List Char) : Bool :=
  match prev.getLast? with
  | some c => c = ',' || c = ':' || c = ';' || c = '、' || c = '：' || c = '，' || c = '；'
  | none => false

/-- The inner accumulation loop (content.py lines 79-113): given the
previous line, the remaining lines and the accumulator, returns how many
lines were consumed and the final accumulator.  The line after the last
consumed one (if any) is not consumed. -/
def contLoop (prev : List Char) (rest : List (List Char)) (chunk : List (List Char)) :
    Nat × List (List Char) :=
  match rest with
  | [] => (0, chunk)
  | cur :: rest' =>
    if allowBulletB cur then
      let p := contLoop cur rest' (chunk ++ [cur])
      (p.1 + 1, p.2)
    else if should_soft_stop cur then (0, chunk)
    else if endsContPunct prev || (decide (8 ≤ cur.length) && !stopHeadB cur) then
      if is_disallowed_bullet cur then (0, chunk)
      else
        let p := contLoop cur rest' (chunk ++ [cur])
        (p.1 + 1, p.2)
    else (0, chunk)

/-- The newline-joined, stripped segment text. -/
def segValue (chunk : List (List Char)) : List Char :=
  pyStrip (List.intercalate ['\n'] chunk)

/-- The outer scan (content.py lines 64-127): at a trigger line, seed the
accumulator, run the inner loop, record the segment when the accumulator is
nonempty, and resume right after the lines consumed; otherwise advance one
line.  The seed parameter is the only point where content.py and
extract_hencha_batch.py differ. -/
def scanLoopF (seed : List Char → List (List Char)) :
    Nat → List (List Char) → Nat → List Segment
  | 0, _, _ => []
  | _ + 1, [], _ => []
  | fuel + 1, line :: rest, i =>
    if triggerFires line then
      let p := contLoop line rest (seed line)
      let segs := scanLoopF seed fuel (rest.drop p.1) (i + 1 + p.1)
      if p.2.isEmpty then segs
      else ⟨i, i + p.1, segValue p.2⟩ :: segs
    else scanLoopF seed fuel rest (i + 1)

/-- The outer scan, entered with fuel equal to the number of lines; each
step consumes at least one line, so the fuel never runs out (scanLoopF_congr
below makes this precise). -/
def scanLoop (seed : List Char → List (List Char)) (ls : List (List Char)) (i : Nat) :
    List Segment :=
  scanLoopF seed ls.length ls i

/-- Seeding of content.py lines 71-76: the cleaned same-line tail,
when nonempty. -/
def contentSeed (line : List Char) : List (List Char) :=
  let post := tail_after_provide line
  if post.isEmpty then [] else [post]

/-- Seeding of extract_hencha_batch.py lines 95-104: the stripped substring
from the keyword onward, when nonempty (the tail is deliberately not added
again, as its comment explains). -/
def batchSeed (line : List Char) : List (List Char) :=
  let sub := (split_provide line).1
  if sub.isEmpty then [] else [sub]

/-- The final result assembly (content.py lines 129-137, identical in the
batch file): empty results give the all-empty record, otherwise the first
segment is the value and the second and third are the alternatives. -/
def mkResult (results : List Segment) : ExtractionResult :=
  match results with
  | [] => ⟨none, [], []⟩
  | r :: rs => ⟨some r.value, (rs.take 2).map Segment.value, r :: rs⟩

/-- extract_hencha_from_lines of content.py.  Totality of this Lean function
(it is defined by well-founded recursion over the line list) models the
never-raises contract of the Python function. -/
def extract_hencha_from_lines (lines : List (List Char)) : ExtractionResult :=
  mkResult (scanLoop contentSeed (preprocess lines) 0)

/-- extract_hencha_from_lines of extract_hencha_batch.py (same name in the
source; suffixed here to distinguish the two files). -/
def extract_hencha_from_lines_batch (lines : List (List Char)) : ExtractionResult :=
  mkResult (scanLoop batchSeed (preprocess lines) 0)


theorem scanLoopF_nil (seed : List Char → List (List Char)) (fuel i : Nat) :
    scanLoopF seed fuel [] i = [] := by
  cases fuel <;> simp [scanLoopF]

theorem scanLoopF_congr (seed : List Char → List (List Char)) :
    ∀ (fuel fuel' : Nat) (ls : List (List Char)) (i : Nat),
      ls.length ≤ fuel → ls.length ≤ fuel' →
      scanLoopF seed fuel ls i = scanLoopF seed fuel' ls i := by
  intro fuel
  induction fuel with
  | zero =>
    intro fuel' ls i h _
    have : ls = [] := List.length_eq_zero.mp (Nat.le_antisymm h (Nat.zero_le _))
    subst this
    rw [scanLoopF_nil, scanLoopF_nil]
  | succ fuel ih =>
    intro fuel' ls i h h'
    cases ls with
    | nil => rw [scanLoopF_nil, scanLoopF_nil]
    | cons line rest =>
      cases fuel' with
      | zero => simp at h'
      | succ fuel' =>
        simp only [scanLoopF]
        have hr : rest.length ≤ fuel := by simp at h; omega
        have hr' : rest.length ≤ fuel' := by simp at h'; omega
        by_cases ht : triggerFires line = true
        · simp only [ht, if_true]
          have hd : (rest.drop (contLoop line rest (seed line)).1).length ≤ fuel := by
            simp only [List.length_drop]; omega
          have hd' : (rest.drop (contLoop line rest (seed line)).1).length ≤ fuel' := by
            simp only [List.length_drop]; omega
          rw [ih fuel' _ _ hd hd']
        · simp only [ht, if_false]
          exact ih fuel' _ _ hr hr'

/-- One-step unfolding of scanLoop on a cons cell, with the recursive call
again phrased through scanLoop. -/
theorem scanLoop_cons (seed : List Char → List (List Char)) (line : List Char)
    (rest : List (List Char)) (i : Nat) :
    scanLoop seed (line :: rest) i =
      if triggerFires line then
        let p := contLoop line rest (seed line)
        let segs := scanLoop seed (rest.drop p.1) (i + 1 + p.1)
        if p.2.isEmpty then segs
        else ⟨i, i + p.1, segValue p.2⟩ :: segs
      else scanLoop seed rest (i + 1) := by
  show scanLoopF seed (rest.length + 1) (line :: rest) i = _
  simp only [scanLoopF, scanLoop]
  by_cases ht : triggerFires line = true
  · simp only [ht, if_true]
    rw [scanLoopF_congr seed rest.length (rest.drop (contLoop line rest (seed line)).1).length
        _ _ (by simp [List.length_drop]) (by simp [List.length_drop])]
  · simp only [ht, if_false]
    exact scanLoopF_congr seed rest.length rest.length _ _ (Nat.le_refl _) (Nat.le_refl _)

end Hencha

/-!  Basic facts about the string helpers. -/

theorem isPrefixOf_eq (w l : List Char) : w.isPrefixOf l = true ↔ w <+: l :=
  List.isPrefixOf_iff_prefix

theorem subIn_iff (w l : List Char) : subIn w l = true ↔ w <:+: l := by
  simp only [subIn, List.any_eq_true, List.mem_tails]
  constructor
  · rintro ⟨t, ht, hp⟩
    obtain ⟨b, rfl⟩ := (isPrefixOf_eq w t).mp hp
    obtain ⟨a, rfl⟩ := ht
    exact ⟨a, b, by rw [List.append_assoc]⟩
  · rintro ⟨a, b, rfl⟩
    exact ⟨w ++ b, ⟨a, by rw [List.append_assoc]⟩, (isPrefixOf_eq _ _).mpr ⟨b, rfl⟩⟩

theorem splitFirst_append {w : List Char} :
    ∀ {l b a : List Char}, splitFirst w l = some (b, a) → l = b ++ w ++ a := by
  intro l
  induction l with
  | nil => intro b a h; simp [splitFirst] at h
  | cons c cs ih =>
    intro b a h
    by_cases hp : w.isPrefixOf (c :: cs) = true
    · rw [splitFirst, if_pos hp] at h
      obtain ⟨t, ht⟩ := (isPrefixOf_eq w (c :: cs)).mp hp
      have hb : b = [] := by
        have := congrArg (fun o => (Option.map Prod.fst o).getD ['x']) h
        simpa using this.symm
      have ha : a = (c :: cs).drop w.length := by
        have := congrArg (fun o => (Option.map Prod.snd o).getD ['x']) h
        simpa using this.symm
      subst hb
      rw [ha, ← ht, List.nil_append, List.drop_left]
    · rw [splitFirst, if_neg hp] at h
      cases hsf : splitFirst w cs with
      | none => rw [hsf] at h; exact absurd h (by simp)
      | some p =>
        obtain ⟨b2, a2⟩ := p
        rw [hsf] at h
        have hb : b = c :: b2 := by
          have := congrArg (fun o => (Option.map Prod.fst o).getD ['x']) h
          simpa using this.symm
        have ha : a = a2 := by
          have := congrArg (fun o => (Option.map Prod.snd o).getD ['x']) h
          simpa using this.symm
        subst hb; subst ha
        rw [ih hsf]
        rfl

/-!  Claim C10: the permissive trigger shape imposes no constraint. -/

/-- Any line containing the keyword admits a TRIGGER search match: the
keyword occurrence itself matches, with every optional group empty and
every dot-star matching the empty string. -/
theorem trigger_search_of_contains (l : List Char)
    (h : subIn Hencha.kwProvide l = true) : searchB Hencha.TRIGGER l = true := by
  rw [searchB_iff]
  refine ⟨Hencha.kwProvide, (subIn_iff _ _).mp h, ?_⟩
  show matchL Hencha.TRIGGER Hencha.kwProvide
  exact ⟨[], Hencha.kwProvide, rfl, Or.inl rfl,
    [], Hencha.kwProvide, rfl, trivial,
    [], Hencha.kwProvide, rfl, Or.inl rfl,
    [], Hencha.kwProvide, rfl, trivial,
    Hencha.kwProvide, [], (List.append_nil _).symm,
    (matchL_rstr _ _).mpr rfl, Or.inl rfl⟩

/-- C10: for every normalized line, the full trigger condition (keyword
containment AND a TRIGGER search match AND no NEGATION search match) equals
the simpler condition of keyword containment without negation, because every
optional group of the TRIGGER regex can be empty. -/
theorem c10_trigger_equiv (l : List Char) :
    Hencha.triggerFires l = (subIn Hencha.kwProvide l && !searchB Hencha.NEGATION l) := by
  unfold Hencha.triggerFires
  by_cases h : subIn Hencha.kwProvide l = true
  · rw [h, trigger_search_of_contains l h]
    simp
  · simp only [Bool.not_eq_true] at h
    rw [h]
    simp

/-!  Claim C7: a negated line never triggers and never starts a segment. -/

/-- C7: a line matching the NEGATION pattern never qualifies as a trigger
(regardless of keyword containment or shape match), and the scan at such a
line simply advances by one line, starting no segment there.  The seed
parameter covers the engines of both content.py and extract_hencha_batch.py. -/
theorem c7_negation_blocks (l : List Char)
    (hneg : searchB Hencha.NEGATION l = true) :
    Hencha.triggerFires l = false ∧
    ∀ (seed : List Char → List (List Char)) (rest : List (List Char)) (i : Nat),
      Hencha.scanLoop seed (l :: rest) i = Hencha.scanLoop seed rest (i + 1) := by
  have ht : Hencha.triggerFires l = false := by
    unfold Hencha.triggerFires
    rw [hneg]
    simp
  refine ⟨ht, fun seed rest i => ?_⟩
  rw [Hencha.scanLoop_cons, ht]
  simp

/-- Witness for C7 at the line 不得提供下列資料, which contains the keyword
(and matches the trigger shape) yet is negated. -/
theorem c7_negation_blocks_witness :
    searchB Hencha.NEGATION ['不', '得', '提', '供', '下', '列', '資', '料'] = true ∧
    subIn Hencha.kwProvide ['不', '得', '提', '供', '下', '列', '資', '料'] = true ∧
    Hencha.triggerFires ['不', '得', '提', '供', '下', '列', '資', '料'] = false ∧
    Hencha.scanLoop Hencha.contentSeed [['不', '得', '提', '供', '下', '列', '資', '料']] 0 =
      Hencha.scanLoop Hencha.contentSeed [] 1 :=
  ⟨by decide, by decide,
   (c7_negation_blocks _ (by decide)).1,
   (c7_negation_blocks _ (by decide)).2 Hencha.contentSeed [] 0⟩

/-!  Claim C6: the allowed-bullet rule precedes every stop rule. -/

/-- C6: while accumulating, a line matching the allowed-bullet shape is
always appended and accumulation continues, whatever the other rules would
say about that line: the inner loop recurses unconditionally in this case. -/
theorem c6_allow_bullet_first (prev cur : List Char) (rest chunk : List (List Char))
    (h : Hencha.allowBulletB cur = true) :
    Hencha.contLoop prev (cur :: rest) chunk =
      ((Hencha.contLoop cur rest (chunk ++ [cur])).1 + 1,
       (Hencha.contLoop cur rest (chunk ++ [cur])).2) := by
  simp only [Hencha.contLoop, h, if_true]

/-- Witness for C6 at the line （一）請查照, which matches the allowed-bullet
shape and simultaneously satisfies the politeness-closing stop condition. -/
theorem c6_allow_bullet_first_witness :
    Hencha.allowBulletB ['（', '一', '）', '請', '查', '照'] = true ∧
    Hencha.should_soft_stop ['（', '一', '）', '請', '查', '照'] = true ∧
    Hencha.contLoop [] [['（', '一', '）', '請', '查', '照']] [] =
      ((Hencha.contLoop ['（', '一', '）', '請', '查', '照'] []
          [['（', '一', '）', '請', '查', '照']]).1 + 1,
       (Hencha.contLoop ['（', '一', '）', '請', '查', '照'] []
          [['（', '一', '）', '請', '查', '照']]).2) :=
  ⟨by decide, by decide, c6_allow_bullet_first [] _ [] [] (by decide)⟩

/-!  Claim C3: mutual exclusivity of the allowed bullet with the stop shapes,
and the behaviour when a stop line directly follows a trigger. -/

theorem dropWhile_append_of_all {p : Char → Bool} {u : List Char} (v : List Char)
    (h : ∀ c ∈ u, p c = true) : (u ++ v).dropWhile p = v.dropWhile p := by
  induction u with
  | nil => rfl
  | cons c cs ih => simp_all [List.dropWhile_cons]

/-- The first character of a line that is not whitespace, if any. -/
def firstNonWs (l : List Char) : Option Char :=
  (l.dropWhile isPyWs).head?

theorem allow_firstNonWs (l : List Char) (h : Hencha.allowBulletB l = true) :
    ∃ c, firstNonWs l = some c ∧ (c = '（' ∨ c = '(') := by
  obtain ⟨p, hpre, hm⟩ := (pmatchB_iff _ _).mp h
  obtain ⟨u, v, rfl, hu, hm2⟩ := hm
  obtain ⟨u2, v2, rfl, hc, _⟩ := hm2
  obtain ⟨c, rfl, hcb⟩ := hc
  have hcb' : c = '（' ∨ c = '(' := by simpa using hcb
  have hnws : isPyWs c = false := by
    rcases hcb' with rfl | rfl <;> decide
  obtain ⟨e, rfl⟩ := hpre
  refine ⟨c, ?_, hcb'⟩
  unfold firstNonWs
  have : u ++ ([c] ++ v2) ++ e = u ++ (c :: (v2 ++ e)) := by simp
  rw [this, dropWhile_append_of_all _ hu, List.dropWhile_cons, hnws]
  simp

theorem stop_firstNonWs (l : List Char) (h : Hencha.stopHeadB l = true) :
    ∃ c, firstNonWs l = some c ∧
      c ∈ ['主', '說', '理', '辦', '注', '附', '抄', '結', '此', '敬', '承', '署'] := by
  have hm := (rmatch_iff _ _).mp h
  obtain ⟨u, v, rfl, hu, _⟩ := hm
  rw [matchL_altStrs] at hu
  have : ∃ c t, u = c :: t ∧ isPyWs c = false ∧
      c ∈ ['主', '說', '理', '辦', '注', '附', '抄', '結', '此', '敬', '承', '署'] := by
    simp only [Hencha.HEADS, List.mem_cons, List.not_mem_nil, or_false] at hu
    rcases hu with rfl | rfl | rfl | rfl | rfl | rfl | rfl | rfl | rfl | rfl | rfl | rfl <;>
      exact ⟨_, _, rfl, by decide, by decide⟩
  obtain ⟨c, t, rfl, hnws, hmem⟩ := this
  refine ⟨c, ?_, hmem⟩
  unfold firstNonWs
  rw [List.cons_append, List.dropWhile_cons, hnws]
  simp

theorem disallow_firstNonWs (l : List Char) (h : Hencha.is_disallowed_bullet l = true) :
    ∃ c, firstNonWs l = some c ∧
      (c ∈ Hencha.NUMERALS ∨ c.isDigit = true ∨ c = '•' ∨ c = '●' ∨ c = '○' ∨ c = '-') := by
  have hdig : ∀ c : Char, isPyWs c = true → c.isDigit = false := by
    intro c hc
    simp only [isPyWs, Bool.or_eq_true, decide_eq_true_iff] at hc
    rcases hc with ((((((rfl | rfl) | rfl) | rfl) | rfl) | rfl) | rfl) <;> decide
  have hnum : ∀ c : Char, c ∈ Hencha.NUMERALS → isPyWs c = false := by
    intro c hc
    simp only [Hencha.NUMERALS, List.mem_cons, List.not_mem_nil, or_false] at hc
    rcases hc with rfl | rfl | rfl | rfl | rfl | rfl | rfl | rfl | rfl | rfl <;> decide
  unfold Hencha.is_disallowed_bullet at h
  simp only [Bool.or_eq_true] at h
  rcases h with (h | h) | h
  · obtain ⟨p, hpre, hm⟩ := (pmatchB_iff _ _).mp h
    obtain ⟨u, v, rfl, hu, hm2⟩ := hm
    obtain ⟨u2, v2, rfl, hc, _⟩ := hm2
    obtain ⟨hne, hall⟩ := hc
    obtain ⟨c, t, rfl⟩ := List.exists_cons_of_ne_nil hne
    have hcm : c ∈ Hencha.NUMERALS := by
      have := hall c (by simp)
      simpa using this
    obtain ⟨e, rfl⟩ := hpre
    refine ⟨c, ?_, Or.inl hcm⟩
    unfold firstNonWs
    have : u ++ (c :: t ++ v2) ++ e = u ++ (c :: (t ++ v2 ++ e)) := by simp
    rw [this, dropWhile_append_of_all _ hu, List.dropWhile_cons, hnum c hcm]
    simp
  · obtain ⟨p, hpre, hm⟩ := (pmatchB_iff _ _).mp h
    obtain ⟨u, v, rfl, hu, hm2⟩ := hm
    obtain ⟨u2, v2, rfl, hc, _⟩ := hm2
    obtain ⟨hne, hall⟩ := hc
    obtain ⟨c, t, rfl⟩ := List.exists_cons_of_ne_nil hne
    have hcd : c.isDigit = true := hall c (by simp)
    have hnws : isPyWs c = false := by
      cases hx : isPyWs c
      · rfl
      · rw [hdig c hx] at hcd; exact absurd hcd (by simp)
    obtain ⟨e, rfl⟩ := hpre
    refine ⟨c, ?_, Or.inr (Or.inl hcd)⟩
    unfold firstNonWs
    have : u ++ (c :: t ++ v2) ++ e = u ++ (c :: (t ++ v2 ++ e)) := by simp
    rw [this, dropWhile_append_of_all _ hu, List.dropWhile_cons, hnws]
    simp
  · obtain ⟨p, hpre, hm⟩ := (pmatchB_iff _ _).mp h
    obtain ⟨u, v, rfl, hu, hm2⟩ := hm
    obtain ⟨u2, v2, rfl, hc, _⟩ := hm2
    obtain ⟨c, rfl, hcb⟩ := hc
    have hcb0 : ((c = '•' ∨ c = '●') ∨ c = '○') ∨ c = '-' := by simpa using hcb
    have hcb' : c = '•' ∨ c = '●' ∨ c = '○' ∨ c = '-' := by tauto
    have hnws : isPyWs c = false := by
      rcases hcb' with rfl | rfl | rfl | rfl <;> decide
    obtain ⟨e, rfl⟩ := hpre
    refine ⟨c, ?_, Or.inr (Or.inr hcb')⟩
    unfold firstNonWs
    have : u ++ ([c] ++ v2) ++ e = u ++ (c :: (v2 ++ e)) := by simp
    rw [this, dropWhile_append_of_all _ hu, List.dropWhile_cons, hnws]
    simp

/-- A stop-header line never matches the allowed-bullet shape. -/
theorem stop_not_allow (l : List Char) (h : Hencha.stopHeadB l = true) :
    Hencha.allowBulletB l = false := by
  cases ha : Hencha.allowBulletB l
  · rfl
  · obtain ⟨c, hc, hcb⟩ := allow_firstNonWs l ha
    obtain ⟨c', hc', hmem⟩ := stop_firstNonWs l h
    rw [hc] at hc'
    obtain rfl : c = c' := by injection hc'
    rcases hcb with rfl | rfl <;> exact absurd hmem (by decide)

/-- A disallowed-bullet line never matches the allowed-bullet shape. -/
theorem disallow_not_allow (l : List Char) (h : Hencha.is_disallowed_bullet l = true) :
    Hencha.allowBulletB l = false := by
  cases ha : Hencha.allowBulletB l
  · rfl
  · obtain ⟨c, hc, hcb⟩ := allow_firstNonWs l ha
    obtain ⟨c', hc', hmem⟩ := disallow_firstNonWs l h
    rw [hc] at hc'
    obtain rfl : c = c' := by injection hc'
    rcases hcb with rfl | rfl <;>
      rcases hmem with hmem | hmem | hmem | hmem | hmem | hmem <;>
        exact absurd hmem (by decide)

/-- C3 counterexample: the trigger line 請提供甲乙 is immediately followed by
the stop-header 說明:, yet a segment IS emitted for that trigger, seeded
from the nonempty same-line tail — refuting the claim that such a trigger
yields no segment.  Preprocessing leaves both lines unchanged. -/
theorem c3_counterexample :
    Hencha.preprocess [['請', '提', '供', '甲', '乙'], ['說', '明', ':']] =
      [['請', '提', '供', '甲', '乙'], ['說', '明', ':']] ∧
    Hencha.triggerFires ['請', '提', '供', '甲', '乙'] = true ∧
    Hencha.stopHeadB ['說', '明', ':'] = true ∧
    (Hencha.extract_hencha_from_lines
      [['請', '提', '供', '甲', '乙'], ['說', '明', ':']]).segments =
      [⟨0, 0, ['甲', '乙']⟩] := by
  refine ⟨by decide, by decide, by decide, by decide⟩

/-- C3 amended: when a qualifying trigger line whose same-line tail is EMPTY
is immediately followed by a stop-header or a disallowed bullet, no segment
is emitted for that trigger and the outer scan resumes at the very next line
(when the tail is nonempty, a one-line segment is emitted instead, as the
counterexample shows; termination is modelled by scanLoop being a total
function). -/
theorem c3_amended (line cur : List Char) (rest : List (List Char)) (i : Nat)
    (htr : Hencha.triggerFires line = true)
    (htail : Hencha.tail_after_provide line = [])
    (hstop : Hencha.stopHeadB cur = true ∨ Hencha.is_disallowed_bullet cur = true) :
    Hencha.scanLoop Hencha.contentSeed (line :: cur :: rest) i =
      Hencha.scanLoop Hencha.contentSeed (cur :: rest) (i + 1) := by
  have hallow : Hencha.allowBulletB cur = false := by
    rcases hstop with h | h
    · exact stop_not_allow cur h
    · exact disallow_not_allow cur h
  have hsoft : Hencha.should_soft_stop cur = true := by
    unfold Hencha.should_soft_stop
    rcases hstop with h | h <;> rw [h] <;> simp
  have hseed : Hencha.contentSeed line = [] := by
    unfold Hencha.contentSeed
    rw [htail]
    rfl
  have hcont : Hencha.contLoop line (cur :: rest) [] = (0, []) := by
    simp only [Hencha.contLoop, hallow, hsoft, Bool.false_eq_true, if_false, if_true]
  rw [Hencha.scanLoop_cons, htr]
  simp only [if_true, hseed, hcont, List.isEmpty_nil, List.drop_zero]

/-- Witness for C3 at the trigger 敬請提供如下: (whose tail is empty after
connective stripping) followed by the stop-header 說明:. -/
theorem c3_amended_witness :
    Hencha.triggerFires ['敬', '請', '提', '供', '如', '下', ':'] = true ∧
    Hencha.tail_after_provide ['敬', '請', '提', '供', '如', '下', ':'] = [] ∧
    Hencha.stopHeadB ['說', '明', ':'] = true ∧
    Hencha.scanLoop Hencha.contentSeed
      [['敬', '請', '提', '供', '如', '下', ':'], ['說', '明', ':']] 0 =
      Hencha.scanLoop Hencha.contentSeed [['說', '明', ':']] 1 :=
  ⟨by decide, by decide, by decide,
   c3_amended _ _ [] 0 (by decide) (by decide) (Or.inl (by decide))⟩

/-!  Claim C5: segments are well-formed, ordered and non-overlapping. -/

/-- All segments of the list start at or after lo, have start at most end,
and each later segment starts strictly after the previous one ends. -/
def SegChain : Nat → List Hencha.Segment → Prop
  | _, [] => True
  | lo, s :: ss => lo ≤ s.start_line ∧ s.start_line ≤ s.end_line ∧ SegChain (s.end_line + 1) ss

theorem SegChain.mono : ∀ {lo lo' : Nat} {ss : List Hencha.Segment},
    SegChain lo' ss → lo ≤ lo' → SegChain lo ss := by
  intro lo lo' ss h hle
  cases ss with
  | nil => trivial
  | cons s ss => exact ⟨Nat.le_trans hle h.1, h.2.1, h.2.2⟩

theorem scanLoopF_chain (seed : List Char → List (List Char)) :
    ∀ (fuel : Nat) (ls : List (List Char)) (i : Nat),
      SegChain i (Hencha.scanLoopF seed fuel ls i) := by
  intro fuel
  induction fuel with
  | zero => intro ls i; trivial
  | succ fuel ih =>
    intro ls i
    cases ls with
    | nil => rw [Hencha.scanLoopF_nil]; trivial
    | cons line rest =>
      simp only [Hencha.scanLoopF]
      by_cases ht : Hencha.triggerFires line = true
      · simp only [ht, if_true]
        by_cases he : (Hencha.contLoop line rest (seed line)).2.isEmpty = true
        · simp only [he, if_true]
          exact SegChain.mono (ih _ _) (by omega)
        · simp only [he, if_false]
          refine ⟨Nat.le_refl _, Nat.le_add_right _ _, ?_⟩
          refine SegChain.mono (ih _ _) ?_
          show i + (Hencha.contLoop line rest (seed line)).1 + 1 ≤
            i + 1 + (Hencha.contLoop line rest (seed line)).1
          omega
      · simp only [ht, if_false]
        exact SegChain.mono (ih _ _) (by omega)

theorem chain_lower : ∀ {lo : Nat} {ss : List Hencha.Segment}, SegChain lo ss →
    ∀ s ∈ ss, lo ≤ s.start_line ∧ s.start_line ≤ s.end_line := by
  intro lo ss
  induction ss generalizing lo with
  | nil => intro _ s hs; exact absurd hs (List.not_mem_nil s)
  | cons a ss ih =>
    rintro ⟨h1, h2, h3⟩ s hs
    rcases List.mem_cons.mp hs with rfl | hs
    · exact ⟨h1, h2⟩
    · have := ih h3 s hs
      exact ⟨by omega, this.2⟩

theorem chain_pairwise : ∀ {lo : Nat} {ss : List Hencha.Segment}, SegChain lo ss →
    ss.Pairwise (fun a b => a.end_line < b.start_line) := by
  intro lo ss
  induction ss generalizing lo with
  | nil => intro _; exact List.Pairwise.nil
  | cons a ss ih =>
    rintro ⟨_, _, h3⟩
    refine List.Pairwise.cons ?_ (ih h3)
    intro b hb
    have := (chain_lower h3 b hb).1
    omega

theorem mkResult_segments (rs : List Hencha.Segment) :
    (Hencha.mkResult rs).segments = rs := by
  cases rs <;> rfl

/-- C5: for every document, in both engines, every returned segment has
start_line at most end_line, and the segments list is ordered with pairwise
disjoint line intervals (each segment ends strictly before the next starts). -/
theorem c5_segments_ordered (lines : List (List Char)) :
    ((∀ s ∈ (Hencha.extract_hencha_from_lines lines).segments,
        s.start_line ≤ s.end_line) ∧
      (Hencha.extract_hencha_from_lines lines).segments.Pairwise
        (fun a b => a.end_line < b.start_line)) ∧
    ((∀ s ∈ (Hencha.extract_hencha_from_lines_batch lines).segments,
        s.start_line ≤ s.end_line) ∧
      (Hencha.extract_hencha_from_lines_batch lines).segments.Pairwise
        (fun a b => a.end_line < b.start_line)) := by
  have key : ∀ seed : List Char → List (List Char),
      (∀ s ∈ Hencha.mkResult (Hencha.scanLoop seed (Hencha.preprocess lines) 0) |>.segments,
        s.start_line ≤ s.end_line) ∧
      (Hencha.mkResult (Hencha.scanLoop seed (Hencha.preprocess lines) 0)).segments.Pairwise
        (fun a b => a.end_line < b.start_line) := by
    intro seed
    rw [mkResult_segments]
    have hch := scanLoopF_chain seed (Hencha.preprocess lines).length (Hencha.preprocess lines) 0
    exact ⟨fun s hs => (chain_lower hch s hs).2, chain_pairwise hch⟩
  exact ⟨key Hencha.contentSeed, key Hencha.batchSeed⟩

/-!  Claim C4: idempotence of normalization. -/

/-- C4 counterexample: one normalize pass turns 提(space)(space)供 into
提(space)供 (the whitespace collapsing runs after the confusable-replacement
stage), and a second pass then rewrites the newly created confusable 提 供 to
提供 — so normalize_text is not idempotent. -/
theorem c4_counterexample :
    Hencha.normalize_text (Hencha.normalize_text ['提', ' ', ' ', '供']) ≠
      Hencha.normalize_text ['提', ' ', ' ', '供'] := by decide

theorem spTab_pyWs {c : Char} (h : isSpTab c = true) : isPyWs c = true := by
  simp only [isSpTab, Bool.or_eq_true, decide_eq_true_iff] at h
  rcases h with rfl | rfl <;> decide

/-- Strings with no tab and no two adjacent space-tab characters: the image
of the whitespace collapser. -/
def NiceWs : List Char → Prop
  | [] => True
  | c :: cs => c ≠ '\t' ∧
      (∀ d, cs.head? = some d → ¬(isSpTab c = true ∧ isSpTab d = true)) ∧ NiceWs cs

theorem niceWs_append_right : ∀ {u v : List Char}, NiceWs (u ++ v) → NiceWs v := by
  intro u
  induction u with
  | nil => intro v h; exact h
  | cons c cs ih => intro v h; exact ih h.2.2

theorem niceWs_append_left : ∀ {u v : List Char}, NiceWs (u ++ v) → NiceWs u := by
  intro u
  induction u with
  | nil => intro v _; trivial
  | cons c cs ih =>
    intro v h
    obtain ⟨h1, h2, h3⟩ := h
    refine ⟨h1, ?_, ih h3⟩
    intro d hd
    apply h2 d
    cases cs with
    | nil => simp at hd
    | cons e t => simpa using hd

theorem head_not_of_dropWhile (p : Char → Bool) :
    ∀ (l : List Char) (c : Char), (l.dropWhile p).head? = some c → p c = false := by
  intro l
  induction l with
  | nil => intro c h; simp at h
  | cons a t ih =>
    intro c h
    rw [List.dropWhile_cons] at h
    by_cases hp : p a = true
    · rw [if_pos hp] at h; exact ih c h
    · rw [if_neg hp] at h
      simp only [List.head?_cons, Option.some.injEq] at h
      subst h
      exact Bool.eq_false_iff.mpr hp

theorem dropWhile_eq_self_of_head (p : Char → Bool) (l : List Char)
    (h : ∀ c, l.head? = some c → p c = false) : l.dropWhile p = l := by
  cases l with
  | nil => rfl
  | cons c cs =>
    rw [List.dropWhile_cons, if_neg]
    rw [h c rfl]
    simp

theorem head_of_pre {u v : List Char} {c : Char} (h : u <+: v)
    (hc : u.head? = some c) : v.head? = some c := by
  obtain ⟨t, rfl⟩ := h
  cases u with
  | nil => simp at hc
  | cons a b => simpa using hc

theorem rstripP_pre (p : Char → Bool) (l : List Char) : rstripP p l <+: l := by
  rw [← List.reverse_suffix]
  unfold rstripP
  rw [List.reverse_reverse]
  exact List.dropWhile_suffix p

theorem rstripP_last_not (p : Char → Bool) (l : List Char) (c : Char)
    (h : (rstripP p l).getLast? = some c) : p c = false := by
  rw [← List.head?_reverse] at h
  unfold rstripP at h
  rw [List.reverse_reverse] at h
  exact head_not_of_dropWhile p _ c h

theorem rstripP_eq_self_of_last (p : Char → Bool) (l : List Char)
    (h : ∀ c, l.getLast? = some c → p c = false) : rstripP p l = l := by
  unfold rstripP
  rw [dropWhile_eq_self_of_head p l.reverse (fun c hc => h c (by rwa [List.head?_reverse] at hc)),
    List.reverse_reverse]

theorem pyStrip_head_not (l : List Char) (c : Char)
    (h : (pyStrip l).head? = some c) : isPyWs c = false := by
  have hpre : pyStrip l <+: l.dropWhile isPyWs := rstripP_pre isPyWs _
  exact head_not_of_dropWhile isPyWs _ c (head_of_pre hpre h)

theorem pyStrip_idem (l : List Char) : pyStrip (pyStrip l) = pyStrip l := by
  have h1 : (pyStrip l).dropWhile isPyWs = pyStrip l :=
    dropWhile_eq_self_of_head _ _ (fun c hc => pyStrip_head_not l c hc)
  show rstripP isPyWs ((pyStrip l).dropWhile isPyWs) = pyStrip l
  rw [h1]
  exact rstripP_eq_self_of_last _ _ (fun c hc => rstripP_last_not isPyWs _ c hc)

theorem collapse_true_head : ∀ (s : List Char) (c : Char),
    (collapseAux true s).head? = some c → isSpTab c = false := by
  intro s
  induction s with
  | nil => intro c h; simp [collapseAux] at h
  | cons d t ih =>
    intro c h
    by_cases hd : isSpTab d = true
    · rw [show collapseAux true (d :: t) = collapseAux true t from by
        simp [collapseAux, hd]] at h
      exact ih c h
    · rw [show collapseAux true (d :: t) = d :: collapseAux false t from by
        simp [collapseAux, hd]] at h
      simp only [List.head?_cons, Option.some.injEq] at h
      subst h
      exact Bool.eq_false_iff.mpr hd

theorem collapse_nice : ∀ (s : List Char) (flag : Bool), NiceWs (collapseAux flag s) := by
  intro s
  induction s with
  | nil => intro flag; trivial
  | cons c cs ih =>
    intro flag
    by_cases hsp : isSpTab c = true
    · cases flag
      · rw [show collapseAux false (c :: cs) = ' ' :: collapseAux true cs from by
          simp [collapseAux, hsp]]
        refine ⟨by decide, ?_, ih true⟩
        intro d hd h
        rw [collapse_true_head cs d hd] at h
        exact absurd h.2 (by simp)
      · rw [show collapseAux true (c :: cs) = collapseAux true cs from by
          simp [collapseAux, hsp]]
        exact ih true
    · have hc : c ≠ '\t' := by
        intro hh
        rw [hh] at hsp
        exact hsp (by decide)
      cases flag <;>
        rw [show collapseAux _ (c :: cs) = c :: collapseAux false cs from by
          simp [collapseAux, hsp]] <;>
        exact ⟨hc, fun d _ h => absurd h.1 (by simp [hsp]), ih false⟩

theorem collapseAux_fix : ∀ (l : List Char), NiceWs l →
    collapseAux false l = l ∧
    ((∀ c, l.head? = some c → isSpTab c = false) → collapseAux true l = l) := by
  intro l
  induction l with
  | nil => exact fun _ => ⟨rfl, fun _ => rfl⟩
  | cons c cs ih =>
    rintro ⟨h1, h2, h3⟩
    obtain ⟨ihf, iht⟩ := ih h3
    by_cases hsp : isSpTab c = true
    · have hc : c = ' ' := by
        simp only [isSpTab, Bool.or_eq_true, decide_eq_true_iff] at hsp
        rcases hsp with rfl | rfl
        · rfl
        · exact absurd rfl h1
      have htail : collapseAux true cs = cs := by
        apply iht
        intro d hd
        by_contra hcon
        exact h2 d hd ⟨hsp, Bool.of_not_eq_false hcon⟩
      constructor
      · rw [show collapseAux false (c :: cs) = ' ' :: collapseAux true cs from by
          simp [collapseAux, hsp], htail, hc]
      · intro hh
        exact absurd (hh c rfl) (by simp [hsp])
    · constructor
      · rw [show collapseAux false (c :: cs) = c :: collapseAux false cs from by
          simp [collapseAux, hsp], ihf]
      · intro _
        rw [show collapseAux true (c :: cs) = c :: collapseAux false cs from by
          simp [collapseAux, hsp], ihf]

/-- C4 amended: the whitespace-collapsing-and-trimming stage of
normalize_text is idempotent; the full normalizer is not, because collapsing
whitespace can create a fresh occurrence of a confusable substring that the
replacement table only rewrites on the next pass (see the counterexample). -/
theorem c4_amended (s : List Char) :
    Hencha.wsFinish (Hencha.wsFinish s) = Hencha.wsFinish s := by
  show pyStrip (collapseWs (pyStrip (collapseWs s))) = pyStrip (collapseWs s)
  have hnt : NiceWs (collapseWs s) := collapse_nice s false
  have hnm : NiceWs (pyStrip (collapseWs s)) := by
    have hsfx : (collapseWs s).dropWhile isPyWs <:+ collapseWs s :=
      List.dropWhile_suffix isPyWs
    obtain ⟨u, hu⟩ := hsfx
    have h1 : NiceWs ((collapseWs s).dropWhile isPyWs) :=
      niceWs_append_right (hu ▸ hnt)
    obtain ⟨v, hv⟩ := rstripP_pre isPyWs ((collapseWs s).dropWhile isPyWs)
    exact niceWs_append_left (hv ▸ h1)
  have hhead : ∀ c, (pyStrip (collapseWs s)).head? = some c → isSpTab c = false := by
    intro c hc
    have hw := pyStrip_head_not (collapseWs s) c hc
    by_contra hcon
    rw [spTab_pyWs (Bool.of_not_eq_false hcon)] at hw
    exact absurd hw (by simp)
  have hfix : collapseWs (pyStrip (collapseWs s)) = pyStrip (collapseWs s) :=
    (collapseAux_fix _ hnm).1
  rw [hfix, pyStrip_idem]

/-!  Claim C9: totality and shape of the result record. -/

/-- C9: for every input line sequence the extraction returns a result (the
function is total, modelling the never-raises contract); when the scan
produces no segment the result is exactly the record with null value, empty
alternatives and empty segments, and otherwise the value is the first
segment's text and the alternatives are the texts of the second and third
segments when present. -/
theorem c9_result_shape (lines : List (List Char)) :
    (Hencha.extract_hencha_from_lines lines).segments =
      Hencha.scanLoop Hencha.contentSeed (Hencha.preprocess lines) 0 ∧
    ((Hencha.extract_hencha_from_lines lines).segments = [] →
      Hencha.extract_hencha_from_lines lines = ⟨none, [], []⟩) ∧
    (∀ s ss, (Hencha.extract_hencha_from_lines lines).segments = s :: ss →
      (Hencha.extract_hencha_from_lines lines).value = some s.value ∧
      (Hencha.extract_hencha_from_lines lines).alternatives =
        (ss.take 2).map Hencha.Segment.value) := by
  unfold Hencha.extract_hencha_from_lines
  cases h : Hencha.scanLoop Hencha.contentSeed (Hencha.preprocess lines) 0 with
  | nil =>
    refine ⟨rfl, fun _ => rfl, ?_⟩
    intro s ss hss
    exact absurd hss (by simp [Hencha.mkResult])
  | cons r rs =>
    refine ⟨rfl, ?_, ?_⟩
    · intro hss
      exact absurd hss (by simp [Hencha.mkResult])
    · intro s ss hss
      simp only [Hencha.mkResult] at hss ⊢
      obtain ⟨rfl, rfl⟩ : r = s ∧ rs = ss := by
        constructor
        · exact (List.cons.injEq _ _ _ _ ▸ hss).1
        · exact (List.cons.injEq _ _ _ _ ▸ hss).2
      exact ⟨rfl, rfl⟩

/-!  Claim C1: the end-to-end example of the specification. -/

/-- The six example lines of the specification, realized with the concrete
line shapes it describes: a subject line containing the trigger keyword and
下列資料 (the following materials), the bare header 說明: (Note:), two
parenthesized-ideographic-numeral bullets, the bare header 注意事項:
(Attention:), and a digit-period line. -/
def demoSixLines : List (List Char) :=
  [['主', '旨', '：', '函', '請', '提', '供', '下', '列', '資', '料'],
   ['說', '明', '：'],
   ['（', '一', '）', '近', '三', '年', '度', '財', '務', '報', '表', '影', '本'],
   ['（', '二', '）', '內', '控', '稽', '核', '報', '告'],
   ['注', '意', '事', '項', '：'],
   ['1', '.', ' ', '請', '於', '9', '/', '2', '0', '前', '回', '覆', '。']]

/-- C1 counterexample: on the six example lines the extraction yields exactly
one segment, but it spans ONLY the trigger line (start 0, end 0) with value
資料 — no segment extends to the second bullet at line 3, because the bare
說明: header on line 1 soft-stops accumulation immediately. -/
theorem c1_counterexample :
    (Hencha.extract_hencha_from_lines demoSixLines).segments =
      [⟨0, 0, ['資', '料']⟩] ∧
    ¬ ∃ s ∈ (Hencha.extract_hencha_from_lines demoSixLines).segments,
        s.end_line = 3 := by
  exact ⟨by decide, by decide⟩

/-- C1 amended: on the six example lines the extraction produces exactly one
segment, spanning only the trigger line, whose value is the post-keyword
tail 資料 (the connective 下列 is stripped); the 說明: header, both bullet
lines, the 注意事項: line and the numbered line are all excluded, since the
header immediately following the trigger ends the segment. -/
theorem c1_amended :
    Hencha.extract_hencha_from_lines demoSixLines =
      ⟨some ['資', '料'], [], [⟨0, 0, ['資', '料']⟩]⟩ := by decide

/-!  Claim C2: how the accumulator is seeded at a trigger line. -/

/-- C2 counterexample: in the engine of extract_hencha_batch.py the seeded
text is the substring from the keyword onward — it BEGINS with the trigger
keyword 提供, contradicting the claim that the keyword is never part of the
seeded text. -/
theorem c2_counterexample :
    (Hencha.split_provide ['請', '提', '供', '甲', '文', '件']).1 =
      ['提', '供', '甲', '文', '件'] ∧
    Hencha.kwProvide.isPrefixOf
      (Hencha.split_provide ['請', '提', '供', '甲', '文', '件']).1 = true ∧
    (Hencha.extract_hencha_from_lines_batch
        [['請', '提', '供', '甲', '文', '件']]).value =
      some ['提', '供', '甲', '文', '件'] := by
  exact ⟨by decide, by decide, by decide⟩

theorem dropWhile_append_of_keep (p : Char → Bool) (u v : List Char)
    (hv : v.dropWhile p = v) : (u ++ v).dropWhile p = u.dropWhile p ++ v := by
  induction u with
  | nil => simpa using hv
  | cons c cs ih =>
    rw [List.cons_append, List.dropWhile_cons, List.dropWhile_cons]
    by_cases hp : p c = true
    · rw [if_pos hp, if_pos hp, ih]
    · rw [if_neg hp, if_neg hp, List.cons_append]

/-- C2 amended: on a line containing the keyword (first occurrence splitting
the line as b ++ 提供 ++ a), content.py seeds the accumulator with the
cleanup of the part a strictly after the keyword (connective word, leading
punctuation and surrounding whitespace stripped — the keyword excluded),
while extract_hencha_batch.py seeds it with the stripped substring from the
keyword onward, which RETAINS the keyword as its head. -/
theorem c2_amended (l b a : List Char)
    (h : splitFirst Hencha.kwProvide l = some (b, a)) :
    l = b ++ Hencha.kwProvide ++ a ∧
    Hencha.tail_after_provide l = Hencha.seedStrip a ∧
    Hencha.split_provide l = (pyStrip (Hencha.kwProvide ++ a), Hencha.seedStrip a) ∧
    Hencha.kwProvide <+: (Hencha.split_provide l).1 := by
  refine ⟨splitFirst_append h, ?_, ?_, ?_⟩
  · unfold Hencha.tail_after_provide
    rw [h]
  · unfold Hencha.split_provide
    rw [h]
  · unfold Hencha.split_provide
    rw [h]
    show Hencha.kwProvide <+: pyStrip (Hencha.kwProvide ++ a)
    unfold pyStrip
    have h1 : (Hencha.kwProvide ++ a).dropWhile isPyWs = Hencha.kwProvide ++ a := by
      show ('提' :: '供' :: a).dropWhile isPyWs = '提' :: '供' :: a
      rw [List.dropWhile_cons, if_neg (by decide)]
    rw [h1]
    unfold rstripP
    have h2 : (Hencha.kwProvide ++ a).reverse = a.reverse ++ ['供', '提'] := by
      simp [Hencha.kwProvide]
    rw [h2, dropWhile_append_of_keep isPyWs a.reverse ['供', '提']
        (by rw [List.dropWhile_cons, if_neg (by decide)]),
      List.reverse_append]
    exact ⟨(a.reverse.dropWhile isPyWs).reverse, by rfl⟩

/-- Witness for C2 amended at the line 請提供如下:甲 (split as
請 ++ 提供 ++ 如下:甲): the content seed is 甲, the batch seed is
提供如下:甲 and starts with the keyword. -/
theorem c2_amended_witness :
    splitFirst Hencha.kwProvide ['請', '提', '供', '如', '下', ':', '甲'] =
      some (['請'], ['如', '下', ':', '甲']) ∧
    (['請', '提', '供', '如', '下', ':', '甲'] =
        ['請'] ++ Hencha.kwProvide ++ ['如', '下', ':', '甲'] ∧
      Hencha.tail_after_provide ['請', '提', '供', '如', '下', ':', '甲'] =
        Hencha.seedStrip ['如', '下', ':', '甲'] ∧
      Hencha.split_provide ['請', '提', '供', '如', '下', ':', '甲'] =
        (pyStrip (Hencha.kwProvide ++ ['如', '下', ':', '甲']),
         Hencha.seedStrip ['如', '下', ':', '甲']) ∧
      Hencha.kwProvide <+:
        (Hencha.split_provide ['請', '提', '供', '如', '下', ':', '甲']).1) ∧
    Hencha.seedStrip ['如', '下', ':', '甲'] = ['甲'] :=
  ⟨by decide, c2_amended _ _ _ (by decide), by decide⟩

/-!
Embedding of extract_scope_sentence_batch.py: the keyword finder, the
delimiter-bounded sentence extractor and the merge-and-sort of co-located
hits.
-/

namespace Scope

/-- The alternatives of KEYWORD_REGEX in matching order, with the 毋/無
group expanded in its own alternation order.  Every alternative is a fixed
string, so a regex match at a position is exactly a prefix match of the
first alternative that fits, and finditer scans positions left to right,
resuming after each (nonempty) match. -/
def KEYWORDS : List (List Char) :=
  [['扣', '押', '範', '圍', '不', '含'],
   ['本', '命', '令', '之', '效', '力'],
   ['毋', '庸', '執', '行', '扣', '押'],
   ['無', '庸', '執', '行', '扣', '押'],
   ['毋', '庸', '扣', '押'],
   ['無', '庸', '扣', '押'],
   ['非', '屬', '執', '行', '命', '令', '扣', '押', '範', '圍']]

/-- DEFAULT_DELIMS: the three sentence-period variants. -/
def DEFAULT_DELIMS : List Char := ['。', '．', '｡']

/-- The light replacement table of this file's normalize_text (the second
entry is the identity replacement written in the source). -/
def REPL_TABLE : List (List Char × List Char) :=
  [(['﹒'], ['．']), (['．'], ['．']), (['　'], [' '])]

/-- normalize_text of extract_scope_sentence_batch.py lines 57-67: only the
replacement table, no whitespace collapsing, newlines kept. -/
def normalize_text (s : List Char) : List Char :=
  REPL_TABLE.foldl (fun acc kv => replaceAll kv.1 kv.2 acc) s

/-- One keyword hit: start index, end index (exclusive) and the matched
keyword. -/
structure Hit where
  start : Nat
  stop : Nat
  kw : List Char
deriving DecidableEq, Repr

/-- The keyword (if any) matching at the current position, trying the
alternatives in order. -/
def firstKwAt (t : List Char) : Option (List Char) :=
  KEYWORDS.find? (fun k => k.isPrefixOf t)

/-- Fuel-driven worker for findIter. -/
def findIterF : Nat → List Char → Nat → List Hit
  | 0, _, _ => []
  | _ + 1, [], _ => []
  | fuel + 1, c :: cs, pos =>
    match firstKwAt (c :: cs) with
    | some k =>
      ⟨pos, pos + k.length, k⟩ :: findIterF fuel ((c :: cs).drop k.length) (pos + k.length)
    | none => findIterF fuel cs (pos + 1)

/-- KEYWORD_REGEX.finditer: all non-overlapping hits, leftmost first, each
alternative tried in order at each position. -/
def findIter (t : List Char) (pos : Nat) : List Hit :=
  findIterF t.length t pos

/-- Scan downward from hi - 1: the largest index below hi satisfying p. -/
def rfindAux (p : Nat → Bool) : Nat → Option Nat
  | 0 => none
  | n + 1 => if p n then some n else rfindAux p n

/-- Python text.rfind(d, 0, hi): the largest index of d strictly below hi
(and within the text), none when absent. -/
def rfindChar (d : Char) (text : List Char) (hi : Nat) : Option Nat :=
  rfindAux (fun i => text.get? i == some d) hi

/-- Python text.find(d, lo): the smallest index of d at or after lo, none
when absent. -/
def ffindChar (d : Char) (text : List Char) (lo : Nat) : Option Nat :=
  (List.range' lo (text.length - lo)).find? (fun i => text.get? i == some d)

/-- Maximum of two optional numbers (Python max with the -1 sentinel for
missing values). -/
def optMax : Option Nat → Option Nat → Option Nat
  | none, o => o
  | some m, none => some m
  | some m, some n => some (max m n)

/-- Minimum of a list of numbers, none when empty (Python min with
default -1). -/
def listMin? (l : List Nat) : Option Nat :=
  l.foldl (fun acc x =>
    match acc with
    | none => some x
    | some m => some (min m x)) none

/-- find_sentence_bounds of extract_scope_sentence_batch.py lines 70-86:
sentence start is one past the nearest delimiter strictly before the match
start (or 0), sentence end is the nearest delimiter at or after the match
end (or the last position of the text). -/
def find_sentence_bounds (text : List Char) (span : Nat × Nat) (delims : List Char) :
    Nat × Nat :=
  (match (delims.map (fun d => rfindChar d text span.1)).foldl optMax none with
   | some l => l + 1
   | none => 0,
   match listMin? (delims.filterMap (fun d => ffindChar d text span.2)) with
   | some r => r
   | none => text.length - 1)

/-- One output record (the Python dict with keys sentence, start, end,
matches, match_spans; end and matches are renamed stop and matches_ because
both are reserved words). -/
structure SentRec where
  sentence : List Char
  start : Nat
  stop : Nat
  matches_ : List (List Char)
  match_spans : List (Nat × Nat)
deriving DecidableEq, Repr

/-- Python slice text[a : b]. -/
def slice (text : List Char) (a b : Nat) : List Char :=
  (text.drop a).take (b - a)

/-- Insertion into the sentence_index_map: extend the record with this key,
or append a fresh record (Python dict insertion order) with the stripped
delimiter-bounded sentence text. -/
def upsert (key : Nat × Nat) (kw : List Char) (span : Nat × Nat) (text : List Char) :
    List ((Nat × Nat) × SentRec) → List ((Nat × Nat) × SentRec)
  | [] => [(key, ⟨pyStrip (slice text key.1 (key.2 + 1)), key.1, key.2, [kw], [span]⟩)]
  | (k, r) :: t =>
    if k = key then
      (k, ⟨r.sentence, r.start, r.stop, r.matches_ ++ [kw], r.match_spans ++ [span]⟩) :: t
    else
      (k, r) :: upsert key kw span text t

/-- The fold over all hits building the sentence_index_map. -/
def buildMap (text delims : List Char) (hits : List Hit) :
    List ((Nat × Nat) × SentRec) :=
  hits.foldl
    (fun m h => upsert (find_sentence_bounds text (h.start, h.stop) delims)
      h.kw (h.start, h.stop) text m) []

/-- Python tuple comparison on (start, end) keys. -/
def keyLe (a b : Nat × Nat) : Bool :=
  decide (a.1 < b.1) || (decide (a.1 = b.1) && decide (a.2 ≤ b.2))

/-- Insertion sort step on keys. -/
def insertSorted (x : (Nat × Nat) × SentRec) :
    List ((Nat × Nat) × SentRec) → List ((Nat × Nat) × SentRec)
  | [] => [x]
  | y :: ys => if keyLe x.1 y.1 then x :: y :: ys else y :: insertSorted x ys

/-- Python sorted(...) over the map keys. -/
def sortByKey (l : List ((Nat × Nat) × SentRec)) : List ((Nat × Nat) × SentRec) :=
  l.foldr insertSorted []

/-- extract_scope_sentences of extract_scope_sentence_batch.py lines 89-128:
normalize, find all keyword hits, merge hits with identical sentence bounds
into one record, output the records sorted by (start, end). -/
def extract_scope_sentences (textRaw delims : List Char) : List SentRec :=
  let text := normalize_text textRaw
  (sortByKey (buildMap text delims (findIter text 0))).map Prod.snd

/-- Position i of the text holds a delimiter character. -/
def DelimAt (text delims : List Char) (i : Nat) : Prop :=
  ∃ d ∈ delims, text.get? i = some d

/-- No position in the half-open range lo..hi holds a delimiter. -/
def NoDelim (text delims : List Char) (lo hi : Nat) : Prop :=
  ∀ i, lo ≤ i → i < hi → ¬ DelimAt text delims i

/-- The specification of sentence bounds for a match span: the start is the
position after the nearest delimiter strictly before the span start (0 when
there is none), and the end is the nearest delimiter at or after the span
end (the last text position when there is none). -/
def BoundsSpec (text delims : List Char) (span sb : Nat × Nat) : Prop :=
  ((sb.1 = 0 ∧ NoDelim text delims 0 span.1) ∨
    (0 < sb.1 ∧ sb.1 ≤ span.1 ∧ DelimAt text delims (sb.1 - 1) ∧
      NoDelim text delims sb.1 span.1)) ∧
  ((DelimAt text delims sb.2 ∧ span.2 ≤ sb.2 ∧ NoDelim text delims span.2 sb.2) ∨
    (sb.2 = text.length - 1 ∧ NoDelim text delims span.2 text.length))

end Scope

/-!  Claim C8, part 1: characterization of the delimiter searches. -/

theorem rfindAux_some (p : Nat → Bool) :
    ∀ n v, Scope.rfindAux p n = some v →
      v < n ∧ p v = true ∧ ∀ j, v < j → j < n → p j = false := by
  intro n
  induction n with
  | zero => intro v h; simp [Scope.rfindAux] at h
  | succ n ih =>
    intro v h
    rw [Scope.rfindAux] at h
    by_cases hp : p n = true
    · rw [if_pos hp] at h
      obtain rfl : n = v := by injection h
      exact ⟨Nat.lt_succ_self _, hp, fun j hj1 hj2 => absurd hj2 (by omega)⟩
    · rw [if_neg hp] at h
      obtain ⟨h1, h2, h3⟩ := ih v h
      refine ⟨by omega, h2, ?_⟩
      intro j hj1 hj2
      by_cases hjn : j = n
      · subst hjn; exact Bool.eq_false_iff.mpr hp
      · exact h3 j hj1 (by omega)

theorem rfindAux_none (p : Nat → Bool) :
    ∀ n, Scope.rfindAux p n = none → ∀ j, j < n → p j = false := by
  intro n
  induction n with
  | zero => intro _ j hj; exact absurd hj (by omega)
  | succ n ih =>
    intro h j hj
    rw [Scope.rfindAux] at h
    by_cases hp : p n = true
    · rw [if_pos hp] at h; exact absurd h (by simp)
    · rw [if_neg hp] at h
      by_cases hjn : j = n
      · subst hjn; exact Bool.eq_false_iff.mpr hp
      · exact ih h j (by omega)

theorem rfindAux_ge (p : Nat → Bool) (n i : Nat) (hi : i < n) (hp : p i = true) :
    ∃ v, Scope.rfindAux p n = some v ∧ i ≤ v := by
  cases h : Scope.rfindAux p n with
  | none =>
    have := rfindAux_none p n h i hi
    rw [this] at hp
    exact absurd hp (by simp)
  | some v =>
    refine ⟨v, rfl, ?_⟩
    obtain ⟨h1, h2, h3⟩ := rfindAux_some p n v h
    by_contra hcon
    push_neg at hcon
    have := h3 i hcon hi
    rw [this] at hp
    exact absurd hp (by simp)

theorem ffind_range'_some (p : Nat → Bool) :
    ∀ (k lo v : Nat), (List.range' lo k).find? p = some v →
      lo ≤ v ∧ v < lo + k ∧ p v = true ∧ ∀ i, lo ≤ i → i < v → p i = false := by
  intro k
  induction k with
  | zero => intro lo v h; simp [List.range'] at h
  | succ k ih =>
    intro lo v h
    rw [List.range'_succ lo k 1] at h
    by_cases hp : p lo = true
    · rw [List.find?_cons_of_pos _ hp] at h
      obtain rfl : lo = v := by injection h
      exact ⟨Nat.le_refl _, by omega, hp, fun i hi1 hi2 => absurd hi2 (by omega)⟩
    · rw [List.find?_cons_of_neg _ hp] at h
      obtain ⟨h1, h2, h3, h4⟩ := ih (lo + 1) v h
      refine ⟨by omega, by omega, h3, ?_⟩
      intro i hi1 hi2
      by_cases hil : i = lo
      · subst hil; exact Bool.eq_false_iff.mpr hp
      · exact h4 i (by omega) hi2

theorem ffind_range'_none (p : Nat → Bool) (k lo : Nat)
    (h : (List.range' lo k).find? p = none) :
    ∀ i, lo ≤ i → i < lo + k → p i = false := by
  intro i hi1 hi2
  have := List.find?_eq_none.mp h i (List.mem_range'_1.mpr ⟨hi1, hi2⟩)
  exact Bool.eq_false_iff.mpr this

theorem ffind_range'_le (p : Nat → Bool) (k lo i : Nat)
    (h1 : lo ≤ i) (h2 : i < lo + k) (hp : p i = true) :
    ∃ v, (List.range' lo k).find? p = some v ∧ v ≤ i := by
  cases h : (List.range' lo k).find? p with
  | none =>
    have := ffind_range'_none p k lo h i h1 h2
    rw [this] at hp
    exact absurd hp (by simp)
  | some v =>
    refine ⟨v, rfl, ?_⟩
    obtain ⟨g1, g2, g3, g4⟩ := ffind_range'_some p k lo v h
    by_contra hcon
    push_neg at hcon
    have := g4 i h1 hcon
    rw [this] at hp
    exact absurd hp (by simp)

theorem foldl_optMax_aux :
    ∀ (l : List (Option Nat)) (acc : Option Nat) (v : Nat),
      l.foldl Scope.optMax acc = some v →
      (acc = some v ∨ some v ∈ l) ∧
      (∀ w, acc = some w → w ≤ v) ∧ (∀ w, some w ∈ l → w ≤ v) := by
  intro l
  induction l with
  | nil =>
    intro acc v h
    simp only [List.foldl_nil] at h
    refine ⟨Or.inl h, fun w hw => ?_, fun w hw => absurd hw (List.not_mem_nil _)⟩
    rw [hw] at h
    injection h with h'
    omega
  | cons o t ih =>
    intro acc v h
    simp only [List.foldl_cons] at h
    obtain ⟨h1, h2, h3⟩ := ih (Scope.optMax acc o) v h
    refine ⟨?_, ?_, ?_⟩
    · rcases h1 with h1 | h1
      · cases acc with
        | none =>
          cases o with
          | none => simp [Scope.optMax] at h1
          | some n =>
            right
            simp only [Scope.optMax] at h1
            rw [h1]
            exact List.mem_cons_self _ _
        | some m =>
          cases o with
          | none => left; exact h1
          | some n =>
            simp only [Scope.optMax, Option.some.injEq] at h1
            rcases max_choice m n with hmx | hmx
            · left; rw [← h1, hmx]
            · right
              rw [← h1, hmx]
              exact List.mem_cons_self _ _
      · right; exact List.mem_cons_of_mem _ h1
    · intro w hw
      cases o with
      | none => exact h2 w (by rw [hw]; rfl)
      | some n =>
        have := h2 (max w n) (by rw [hw]; rfl)
        omega
    · intro w hw
      rcases List.mem_cons.mp hw with hw | hw
      · cases acc with
        | none => exact h2 w (by rw [← hw]; rfl)
        | some m =>
          have := h2 (max m w) (by rw [← hw]; rfl)
          omega
      · exact h3 w hw

theorem foldl_optMax_some (l : List (Option Nat)) (v : Nat)
    (h : l.foldl Scope.optMax none = some v) :
    some v ∈ l ∧ ∀ w, some w ∈ l → w ≤ v := by
  obtain ⟨h1, _, h3⟩ := foldl_optMax_aux l none v h
  rcases h1 with h1 | h1
  · exact absurd h1 (by simp)
  · exact ⟨h1, h3⟩

theorem foldl_optMax_none :
    ∀ (l : List (Option Nat)), l.foldl Scope.optMax none = none → ∀ o ∈ l, o = none := by
  have aux : ∀ (l : List (Option Nat)) (acc : Option Nat),
      l.foldl Scope.optMax acc = none → acc = none ∧ ∀ o ∈ l, o = none := by
    intro l
    induction l with
    | nil => intro acc h; exact ⟨h, fun o ho => absurd ho (List.not_mem_nil _)⟩
    | cons o t ih =>
      intro acc h
      simp only [List.foldl_cons] at h
      obtain ⟨h1, h2⟩ := ih _ h
      have hao : acc = none ∧ o = none := by
        cases acc <;> cases o <;> simp_all [Scope.optMax]
      refine ⟨hao.1, fun x hx => ?_⟩
      rcases List.mem_cons.mp hx with hx | hx
      · rw [hx]; exact hao.2
      · exact h2 x hx
  intro l h
  exact (aux l none h).2

theorem listMin?_min :
    ∀ (l : List Nat) (m v : Nat),
      l.foldl (fun acc x =>
        match acc with
        | none => some x
        | some m => some (min m x)) (some m) = some v →
      (v = m ∨ v ∈ l) ∧ v ≤ m ∧ ∀ w ∈ l, v ≤ w := by
  intro l
  induction l with
  | nil =>
    intro m v h
    simp only [List.foldl_nil, Option.some.injEq] at h
    exact ⟨Or.inl h.symm, by omega, fun w hw => absurd hw (List.not_mem_nil _)⟩
  | cons x t ih =>
    intro m v h
    simp only [List.foldl_cons] at h
    obtain ⟨h1, h2, h3⟩ := ih (min m x) v h
    refine ⟨?_, by omega, ?_⟩
    · rcases h1 with h1 | h1
      · rcases min_choice m x with hmn | hmn
        · left; rw [h1, hmn]
        · right; rw [h1, hmn]; exact List.mem_cons_self _ _
      · right; exact List.mem_cons_of_mem _ h1
    · intro w hw
      rcases List.mem_cons.mp hw with rfl | hw
      · omega
      · exact h3 w hw

theorem listMin?_some (l : List Nat) (v : Nat) (h : Scope.listMin? l = some v) :
    v ∈ l ∧ ∀ w ∈ l, v ≤ w := by
  cases l with
  | nil => exact absurd h (by simp [Scope.listMin?])
  | cons x t =>
    have h' := h
    rw [Scope.listMin?, List.foldl_cons] at h'
    obtain ⟨h1, h2, h3⟩ := listMin?_min t x v h'
    refine ⟨?_, ?_⟩
    · rcases h1 with rfl | h1
      · exact List.mem_cons_self _ _
      · exact List.mem_cons_of_mem _ h1
    · intro w hw
      rcases List.mem_cons.mp hw with rfl | hw
      · exact h2
      · exact h3 w hw

theorem listMin?_ne_none (l : List Nat) (x : Nat) (hx : x ∈ l) :
    Scope.listMin? l ≠ none := by
  have aux : ∀ (t : List Nat) (m : Nat),
      (t.foldl (fun acc x =>
        match acc with
        | none => some x
        | some m => some (min m x)) (some m)).isSome = true := by
    intro t
    induction t with
    | nil => intro m; rfl
    | cons y s ih => intro m; simpa using ih (min m y)
  cases l with
  | nil => exact absurd hx (List.not_mem_nil _)
  | cons y t =>
    intro h
    rw [Scope.listMin?, List.foldl_cons] at h
    have := aux t y
    rw [h] at this
    exact absurd this (by simp)

theorem beq_get_iff (text : List Char) (i : Nat) (d : Char) :
    ((text.get? i == some d) = true) ↔ text.get? i = some d := by
  exact beq_iff_eq

theorem get?_lt_len {text : List Char} {i : Nat} {d : Char}
    (h : text.get? i = some d) : i < text.length := by
  rcases List.get?_eq_some.mp h with ⟨hlt, _⟩
  exact hlt

/-- The computed sentence bounds satisfy the nearest-delimiter
specification. -/
theorem find_sentence_bounds_spec (text delims : List Char) (s e : Nat) :
    Scope.BoundsSpec text delims (s, e) (Scope.find_sentence_bounds text (s, e) delims) := by
  unfold Scope.BoundsSpec
  constructor
  · -- the left bound
    cases hleft : (delims.map (fun d => Scope.rfindChar d text s)).foldl Scope.optMax none with
    | none =>
      have he : (Scope.find_sentence_bounds text (s, e) delims).1 = 0 := by
        unfold Scope.find_sentence_bounds
        rw [hleft]
      rw [he]
      left
      refine ⟨rfl, ?_⟩
      intro i h1 h2 hdel
      obtain ⟨d, hd, hget⟩ := hdel
      have hmem : Scope.rfindChar d text s ∈
          delims.map (fun d => Scope.rfindChar d text s) :=
        List.mem_map_of_mem _ hd
      have hnone := foldl_optMax_none _ hleft _ hmem
      have := rfindAux_none _ s hnone i h2
      rw [(beq_get_iff text i d).mpr hget] at this
      exact absurd this (by simp)
    | some v =>
      have he : (Scope.find_sentence_bounds text (s, e) delims).1 = v + 1 := by
        unfold Scope.find_sentence_bounds
        rw [hleft]
      rw [he]
      right
      obtain ⟨hmem, hmax⟩ := foldl_optMax_some _ v hleft
      obtain ⟨d, hd, hv⟩ := List.mem_map.mp hmem
      obtain ⟨g1, g2, _⟩ := rfindAux_some _ s v hv
      refine ⟨by omega, by omega, ?_, ?_⟩
      · simp only [Nat.add_sub_cancel]
        exact ⟨d, hd, (beq_get_iff text v d).mp g2⟩
      · intro i h1 h2 hdel
        obtain ⟨d2, hd2, hget⟩ := hdel
        obtain ⟨v2, hv2, hge⟩ := rfindAux_ge (fun j => text.get? j == some d2) s i h2
          ((beq_get_iff text i d2).mpr hget)
        have : v2 ≤ v := hmax v2 (List.mem_map.mpr ⟨d2, hd2, hv2⟩)
        omega
  · -- the right bound
    cases hright : Scope.listMin? (delims.filterMap (fun d => Scope.ffindChar d text e)) with
    | none =>
      have he : (Scope.find_sentence_bounds text (s, e) delims).2 = text.length - 1 := by
        unfold Scope.find_sentence_bounds
        rw [hright]
      rw [he]
      right
      refine ⟨rfl, ?_⟩
      intro i h1 h2 hdel
      obtain ⟨d, hd, hget⟩ := hdel
      cases hf : Scope.ffindChar d text e with
      | none =>
        have := ffind_range'_none _ _ _ hf i h1 (by
          have := get?_lt_len hget
          omega)
        rw [(beq_get_iff text i d).mpr hget] at this
        exact absurd this (by simp)
      | some v =>
        have hmem : v ∈ delims.filterMap (fun d => Scope.ffindChar d text e) :=
          List.mem_filterMap.mpr ⟨d, hd, hf⟩
        exact absurd hright (listMin?_ne_none _ v hmem)
    | some v =>
      have he : (Scope.find_sentence_bounds text (s, e) delims).2 = v := by
        unfold Scope.find_sentence_bounds
        rw [hright]
      rw [he]
      left
      obtain ⟨hmem, hmin⟩ := listMin?_some _ v hright
      obtain ⟨d, hd, hv⟩ := List.mem_filterMap.mp hmem
      obtain ⟨g1, g2, g3, g4⟩ := ffind_range'_some _ _ _ v hv
      refine ⟨⟨d, hd, (beq_get_iff text v d).mp g3⟩, g1, ?_⟩
      intro i h1 h2 hdel
      obtain ⟨d2, hd2, hget⟩ := hdel
      obtain ⟨v2, hv2, hle⟩ := ffind_range'_le (fun j => text.get? j == some d2)
        (text.length - e) e i h1 (by
          have := get?_lt_len hget
          omega)
        ((beq_get_iff text i d2).mpr hget)
      have : v ≤ v2 := hmin v2 (List.mem_filterMap.mpr ⟨d2, hd2, hv2⟩)
      omega

/-!  Claim C8, part 2: invariants of the merge map and the key sort. -/

/-- Invariant of the sentence_index_map: keys are pairwise distinct, every
record carries its key as its start and end fields, and every span stored in
a record computes exactly that record's bounds. -/
def MapInv (text delims : List Char) (m : List ((Nat × Nat) × Scope.SentRec)) : Prop :=
  m.Pairwise (fun a b => a.1 ≠ b.1) ∧
  ∀ kr ∈ m, kr.2.start = kr.1.1 ∧ kr.2.stop = kr.1.2 ∧
    ∀ sp ∈ kr.2.match_spans, Scope.find_sentence_bounds text sp delims = kr.1

theorem upsert_mem_keys (key : Nat × Nat) (kw : List Char) (span : Nat × Nat)
    (text : List Char) :
    ∀ (m : List ((Nat × Nat) × Scope.SentRec)) (b : (Nat × Nat) × Scope.SentRec),
      b ∈ Scope.upsert key kw span text m → b.1 = key ∨ ∃ c ∈ m, b.1 = c.1 := by
  intro m
  induction m with
  | nil =>
    intro b hb
    simp only [Scope.upsert, List.mem_singleton] at hb
    subst hb
    exact Or.inl rfl
  | cons kr t ih =>
    intro b hb
    obtain ⟨k, r⟩ := kr
    rw [Scope.upsert] at hb
    by_cases hk : k = key
    · rw [if_pos hk] at hb
      rcases List.mem_cons.mp hb with rfl | hb
      · exact Or.inl hk
      · exact Or.inr ⟨b, List.mem_cons_of_mem _ hb, rfl⟩
    · rw [if_neg hk] at hb
      rcases List.mem_cons.mp hb with rfl | hb
      · exact Or.inr ⟨(k, r), List.mem_cons_self _ _, rfl⟩
      · rcases ih b hb with h | ⟨c, hc, he⟩
        · exact Or.inl h
        · exact Or.inr ⟨c, List.mem_cons_of_mem _ hc, he⟩

theorem upsert_inv (text delims : List Char) (key : Nat × Nat) (kw : List Char)
    (span : Nat × Nat) (hb : Scope.find_sentence_bounds text span delims = key) :
    ∀ (m : List ((Nat × Nat) × Scope.SentRec)), MapInv text delims m →
      MapInv text delims (Scope.upsert key kw span text m) := by
  intro m
  induction m with
  | nil =>
    intro _
    constructor
    · exact List.pairwise_singleton _ _
    · intro kr hkr
      simp only [Scope.upsert, List.mem_singleton] at hkr
      subst hkr
      refine ⟨rfl, rfl, ?_⟩
      intro sp hsp
      simp only [List.mem_singleton] at hsp
      subst hsp
      exact hb
  | cons kr0 t ih =>
    rintro ⟨hpw, hrec⟩
    obtain ⟨k, r⟩ := kr0
    rw [Scope.upsert]
    by_cases hk : k = key
    · rw [if_pos hk]
      rcases List.pairwise_cons.mp hpw with ⟨hhead, htail⟩
      constructor
      · exact List.pairwise_cons.mpr ⟨hhead, htail⟩
      · intro kr hkr
        rcases List.mem_cons.mp hkr with rfl | hkr
        · obtain ⟨f1, f2, f3⟩ := hrec (k, r) (List.mem_cons_self _ _)
          refine ⟨f1, f2, ?_⟩
          intro sp hsp
          rcases List.mem_append.mp hsp with hsp | hsp
          · exact f3 sp hsp
          · simp only [List.mem_singleton] at hsp
            subst hsp
            rw [hb, hk]
        · exact hrec kr (List.mem_cons_of_mem _ hkr)
    · rw [if_neg hk]
      rcases List.pairwise_cons.mp hpw with ⟨hhead, htail⟩
      have ihm := ih ⟨htail, fun kr hkr => hrec kr (List.mem_cons_of_mem _ hkr)⟩
      constructor
      · refine List.pairwise_cons.mpr ⟨?_, ihm.1⟩
        intro b hbmem
        rcases upsert_mem_keys key kw span text t b hbmem with h | ⟨c, hc, he⟩
        · rw [h]; exact hk
        · rw [he]; exact hhead c hc
      · intro kr hkr
        rcases List.mem_cons.mp hkr with rfl | hkr
        · exact hrec (k, r) (List.mem_cons_self _ _)
        · exact ihm.2 kr hkr

theorem upsert_grow (key : Nat × Nat) (kw : List Char) (span : Nat × Nat)
    (text : List Char) :
    ∀ (m : List ((Nat × Nat) × Scope.SentRec)) (kr : (Nat × Nat) × Scope.SentRec),
      kr ∈ m → ∃ kr2 ∈ Scope.upsert key kw span text m, kr2.1 = kr.1 ∧
        (∀ sp ∈ kr.2.match_spans, sp ∈ kr2.2.match_spans) ∧
        (∀ w ∈ kr.2.matches_, w ∈ kr2.2.matches_) := by
  intro m
  induction m with
  | nil => intro kr hkr; exact absurd hkr (List.not_mem_nil _)
  | cons kr0 t ih =>
    intro kr hkr
    obtain ⟨k, r⟩ := kr0
    rw [Scope.upsert]
    by_cases hk : k = key
    · rw [if_pos hk]
      rcases List.mem_cons.mp hkr with rfl | hkr
      · refine ⟨(k, ⟨r.sentence, r.start, r.stop, r.matches_ ++ [kw],
          r.match_spans ++ [span]⟩), List.mem_cons_self _ _, rfl, ?_, ?_⟩
        · intro sp hsp; exact List.mem_append_left _ hsp
        · intro w hw; exact List.mem_append_left _ hw
      · exact ⟨kr, List.mem_cons_of_mem _ hkr, rfl, fun sp h => h, fun w h => h⟩
    · rw [if_neg hk]
      rcases List.mem_cons.mp hkr with rfl | hkr
      · exact ⟨(k, r), List.mem_cons_self _ _, rfl, fun sp h => h, fun w h => h⟩
      · obtain ⟨kr2, h1, h2, h3, h4⟩ := ih kr hkr
        exact ⟨kr2, List.mem_cons_of_mem _ h1, h2, h3, h4⟩

theorem upsert_new (key : Nat × Nat) (kw : List Char) (span : Nat × Nat)
    (text : List Char) :
    ∀ (m : List ((Nat × Nat) × Scope.SentRec)),
      ∃ kr ∈ Scope.upsert key kw span text m,
        span ∈ kr.2.match_spans ∧ kw ∈ kr.2.matches_ := by
  intro m
  induction m with
  | nil =>
    refine ⟨(key, ⟨pyStrip (Scope.slice text key.1 (key.2 + 1)), key.1, key.2,
      [kw], [span]⟩), List.mem_cons_self _ _, ?_, ?_⟩ <;> simp
  | cons kr0 t ih =>
    obtain ⟨k, r⟩ := kr0
    rw [Scope.upsert]
    by_cases hk : k = key
    · rw [if_pos hk]
      refine ⟨(k, ⟨r.sentence, r.start, r.stop, r.matches_ ++ [kw],
        r.match_spans ++ [span]⟩), List.mem_cons_self _ _, ?_, ?_⟩ <;> simp
    · rw [if_neg hk]
      obtain ⟨kr, h1, h2, h3⟩ := ih
      exact ⟨kr, List.mem_cons_of_mem _ h1, h2, h3⟩

theorem foldl_upsert_inv (text delims : List Char) :
    ∀ (hits : List Scope.Hit) (m : List ((Nat × Nat) × Scope.SentRec)),
      MapInv text delims m →
      MapInv text delims (hits.foldl (fun m h =>
        Scope.upsert (Scope.find_sentence_bounds text (h.start, h.stop) delims)
          h.kw (h.start, h.stop) text m) m) ∧
      (∀ kr ∈ m, ∃ kr2 ∈ hits.foldl (fun m h =>
          Scope.upsert (Scope.find_sentence_bounds text (h.start, h.stop) delims)
            h.kw (h.start, h.stop) text m) m, kr2.1 = kr.1 ∧
        (∀ sp ∈ kr.2.match_spans, sp ∈ kr2.2.match_spans) ∧
        (∀ w ∈ kr.2.matches_, w ∈ kr2.2.matches_)) ∧
      (∀ h ∈ hits, ∃ kr ∈ hits.foldl (fun m h =>
          Scope.upsert (Scope.find_sentence_bounds text (h.start, h.stop) delims)
            h.kw (h.start, h.stop) text m) m,
        (h.start, h.stop) ∈ kr.2.match_spans ∧ h.kw ∈ kr.2.matches_) := by
  intro hits
  induction hits with
  | nil =>
    intro m hm
    refine ⟨hm, fun kr hkr => ⟨kr, hkr, rfl, fun sp h => h, fun w h => h⟩,
      fun h hh => absurd hh (List.not_mem_nil _)⟩
  | cons h0 t ih =>
    intro m hm
    simp only [List.foldl_cons]
    have hm1 := upsert_inv text delims _ h0.kw (h0.start, h0.stop) rfl m hm
    obtain ⟨g1, g2, g3⟩ := ih _ hm1
    refine ⟨g1, ?_, ?_⟩
    · intro kr hkr
      obtain ⟨kra, ha1, ha2, ha3, ha4⟩ :=
        upsert_grow (Scope.find_sentence_bounds text (h0.start, h0.stop) delims)
          h0.kw (h0.start, h0.stop) text m kr hkr
      obtain ⟨krb, hb1, hb2, hb3, hb4⟩ := g2 kra ha1
      exact ⟨krb, hb1, by rw [hb2, ha2], fun sp hs => hb3 sp (ha3 sp hs),
        fun w hw => hb4 w (ha4 w hw)⟩
    · intro h hh
      rcases List.mem_cons.mp hh with rfl | hh
      · obtain ⟨kra, ha1, ha2, ha3⟩ :=
          upsert_new (Scope.find_sentence_bounds text (h.start, h.stop) delims)
            h.kw (h.start, h.stop) text m
        obtain ⟨krb, hb1, _, hb3, hb4⟩ := g2 kra ha1
        exact ⟨krb, hb1, hb3 _ ha2, hb4 _ ha3⟩
      · exact g3 h hh

theorem keyLe_total (a b : Nat × Nat) :
    Scope.keyLe a b = true ∨ Scope.keyLe b a = true := by
  simp only [Scope.keyLe, Bool.or_eq_true, Bool.and_eq_true, decide_eq_true_iff]
  omega

theorem keyLe_trans {a b c : Nat × Nat} (h1 : Scope.keyLe a b = true)
    (h2 : Scope.keyLe b c = true) : Scope.keyLe a c = true := by
  simp only [Scope.keyLe, Bool.or_eq_true, Bool.and_eq_true, decide_eq_true_iff] at h1 h2 ⊢
  omega

theorem insertSorted_perm (x : (Nat × Nat) × Scope.SentRec) :
    ∀ (l : List ((Nat × Nat) × Scope.SentRec)), (Scope.insertSorted x l).Perm (x :: l) := by
  intro l
  induction l with
  | nil => exact List.Perm.refl _
  | cons y ys ih =>
    rw [Scope.insertSorted]
    by_cases hle : Scope.keyLe x.1 y.1 = true
    · rw [if_pos hle]
    · rw [if_neg hle]
      exact ((ih.cons y).trans (List.Perm.swap x y ys))

theorem sortByKey_perm (l : List ((Nat × Nat) × Scope.SentRec)) :
    (Scope.sortByKey l).Perm l := by
  induction l with
  | nil => exact List.Perm.refl _
  | cons y ys ih =>
    show (Scope.insertSorted y (Scope.sortByKey ys)).Perm (y :: ys)
    exact (insertSorted_perm y (Scope.sortByKey ys)).trans (ih.cons y)

theorem insertSorted_sorted (x : (Nat × Nat) × Scope.SentRec) :
    ∀ (l : List ((Nat × Nat) × Scope.SentRec)),
      l.Pairwise (fun a b => Scope.keyLe a.1 b.1 = true) →
      (Scope.insertSorted x l).Pairwise (fun a b => Scope.keyLe a.1 b.1 = true) := by
  intro l
  induction l with
  | nil => intro _; exact List.pairwise_singleton _ _
  | cons y ys ih =>
    intro h
    rcases List.pairwise_cons.mp h with ⟨hhead, htail⟩
    rw [Scope.insertSorted]
    by_cases hle : Scope.keyLe x.1 y.1 = true
    · rw [if_pos hle]
      refine List.pairwise_cons.mpr ⟨?_, h⟩
      intro b hb
      rcases List.mem_cons.mp hb with rfl | hb
      · exact hle
      · exact keyLe_trans hle (hhead b hb)
    · rw [if_neg hle]
      refine List.pairwise_cons.mpr ⟨?_, ih htail⟩
      intro b hb
      rcases (insertSorted_perm x ys).mem_iff.mp hb with hb'
      rcases List.mem_cons.mp hb' with rfl | hb'
      · rcases keyLe_total b.1 y.1 with hx | hx
        · exact absurd hx hle
        · exact hx
      · exact hhead b hb'

theorem sortByKey_sorted (l : List ((Nat × Nat) × Scope.SentRec)) :
    (Scope.sortByKey l).Pairwise (fun a b => Scope.keyLe a.1 b.1 = true) := by
  induction l with
  | nil => exact List.Pairwise.nil
  | cons y ys ih => exact insertSorted_sorted y (Scope.sortByKey ys) ih

/-- C8: for every text the sentence extractor yields records whose (start,
end) bounds are exactly the delimiter-bounded sentence of each of their
match spans (the position after the nearest delimiter strictly before a
span's start, or 0, through the nearest delimiter at or after the span's
end, or the last text position), every keyword hit lands in exactly the
record of its bounds (hits with identical bounds merge, since the records
are pairwise strictly ordered by (start, end)), and the output is sorted by
start. -/
theorem c8_sentence_extractor (textRaw delims : List Char) :
    (∀ r ∈ Scope.extract_scope_sentences textRaw delims,
      ∀ sp ∈ r.match_spans,
        Scope.find_sentence_bounds (Scope.normalize_text textRaw) sp delims =
          (r.start, r.stop) ∧
        Scope.BoundsSpec (Scope.normalize_text textRaw) delims sp (r.start, r.stop)) ∧
    (Scope.extract_scope_sentences textRaw delims).Pairwise
      (fun a b => a.start < b.start ∨ (a.start = b.start ∧ a.stop < b.stop)) ∧
    (∀ h ∈ Scope.findIter (Scope.normalize_text textRaw) 0,
      ∃ r ∈ Scope.extract_scope_sentences textRaw delims,
        (h.start, h.stop) ∈ r.match_spans ∧ h.kw ∈ r.matches_) := by
  have hbuild := foldl_upsert_inv (Scope.normalize_text textRaw) delims
    (Scope.findIter (Scope.normalize_text textRaw) 0) []
    ⟨List.Pairwise.nil, fun kr hkr => absurd hkr (List.not_mem_nil _)⟩
  obtain ⟨⟨hkeys, hrec⟩, _, hcover⟩ := hbuild
  have hperm : (Scope.sortByKey (Scope.buildMap (Scope.normalize_text textRaw) delims
      (Scope.findIter (Scope.normalize_text textRaw) 0))).Perm
      (Scope.buildMap (Scope.normalize_text textRaw) delims
        (Scope.findIter (Scope.normalize_text textRaw) 0)) :=
    sortByKey_perm _
  have hsorted := sortByKey_sorted (Scope.buildMap (Scope.normalize_text textRaw) delims
    (Scope.findIter (Scope.normalize_text textRaw) 0))
  have hkeys' : (Scope.sortByKey (Scope.buildMap (Scope.normalize_text textRaw) delims
      (Scope.findIter (Scope.normalize_text textRaw) 0))).Pairwise
      (fun a b => a.1 ≠ b.1) := by
    refine (hperm.symm.pairwise_iff ?_).mp hkeys
    intro a b hab
    exact fun he => hab he.symm
  have hre : Scope.extract_scope_sentences textRaw delims =
      (Scope.sortByKey (Scope.buildMap (Scope.normalize_text textRaw) delims
        (Scope.findIter (Scope.normalize_text textRaw) 0))).map Prod.snd := rfl
  refine ⟨?_, ?_, ?_⟩
  · intro r hr sp hsp
    rw [hre] at hr
    obtain ⟨kr, hkr, hkr2⟩ := List.mem_map.mp hr
    have hkrm := hperm.mem_iff.mp hkr
    obtain ⟨f1, f2, f3⟩ := hrec kr hkrm
    subst hkr2
    have hb := f3 sp hsp
    have hpair : (kr.2.start, kr.2.stop) = kr.1 := by
      rw [f1, f2]
    rw [hpair, hb]
    refine ⟨rfl, ?_⟩
    have := find_sentence_bounds_spec (Scope.normalize_text textRaw) delims sp.1 sp.2
    rw [← hb]
    simpa using this
  · rw [hre]
    rw [List.pairwise_map]
    have hboth := hsorted.and hkeys'
    refine hboth.imp_of_mem ?_
    intro a b ha hb hab
    obtain ⟨fa1, fa2, _⟩ := hrec a (hperm.mem_iff.mp ha)
    obtain ⟨fb1, fb2, _⟩ := hrec b (hperm.mem_iff.mp hb)
    obtain ⟨hle, hne⟩ := hab
    simp only [Scope.keyLe, Bool.or_eq_true, Bool.and_eq_true, decide_eq_true_iff] at hle
    rw [fa1, fa2, fb1, fb2]
    have hne' : a.1.1 ≠ b.1.1 ∨ a.1.2 ≠ b.1.2 := by
      by_contra hcon
      push_neg at hcon
      exact hne (Prod.ext hcon.1 hcon.2)
    rcases hle with hlt | ⟨heq, hle2⟩
    · exact Or.inl hlt
    · right
      refine ⟨heq, ?_⟩
      rcases hne' with hx | hx
      · exact absurd heq hx
      · omega
  · intro h hh
    obtain ⟨kr, hkr, hsp, hkw⟩ := hcover h hh
    refine ⟨kr.2, ?_, hsp, hkw⟩
    rw [hre]
    exact List.mem_map_of_mem _ (hperm.mem_iff.mpr hkr)
